import Mathlib

/-!
Verification of the AiProofTrace core algorithms (canonicalizer, record
hasher, Merkle batch builder, proof generator/verifier, verification
orchestrator) against their natural-language specification.

Shallow embedding conventions:
* JS strings are modelled as `List Char` (`Str`); all the strings handled
  by the code under verification are ASCII hex strings, so JS UTF-16
  code-unit comparison coincides with codepoint comparison.
* `keccak256` is an external library primitive (from `ethers`), not code of
  this repository; it is a parameter `K : Str → Str` throughout, with the
  facts needed about it stated as explicit hypotheses.
* JS exceptions are modelled by `Option` (a `none` result is a throw).
* `JSON.stringify` / JS object iteration are modelled on association lists;
  JS numbers are restricted to integers (the repository only ever
  canonicalizes integers and short decimals, and no claim depends on
  float formatting).
-/

namespace AiProofTrace

/-- JS strings, as lists of characters. -/
abbrev Str := List Char

/-- ASCII lower-casing of one character, as performed by
`String.prototype.toLowerCase` on the Basic Latin range (the only range the
code ever feeds it). -/
def lowerChar (c : Char) : Char :=
  if 65 ≤ c.toNat ∧ c.toNat ≤ 90 then Char.ofNat (c.toNat + 32) else c

/-- `s.toLowerCase()`. -/
def jsLower (s : Str) : Str := s.map lowerChar

/-- `s.replace(/^0x/, '')`: strip one leading `0x` if present. -/
def strip0x (s : Str) : Str :=
  if s.take 2 = ['0', 'x'] then s.drop 2 else s

/-- `normalizeHash` from `src/server/src/merkle/merkle.ts` (the identical
helper also appears in `hasher.ts`): lower-case, strip one `0x`, re-prefix. -/
def normalizeHash (s : Str) : Str :=
  '0' :: 'x' :: strip0x (jsLower s)

/-- JS `[a, b].sort()` on two strings: ascending, stable. -/
def sortPair (a b : Str) : Str × Str :=
  if a ≤ b then (a, b) else (b, a)

/-- `hashPair` from `merkle.ts`: normalize both hashes, sort the pair,
concatenate (dropping the second `0x`), and hash with keccak256. -/
def hashPair (K : Str → Str) (left right : Str) : Str :=
  let p := sortPair (normalizeHash left) (normalizeHash right)
  K (p.1 ++ p.2.drop 2)

/-- `buildNextLevel` from `merkle.ts`: pairwise combination of adjacent
nodes, the last node of an odd-length level combined with itself. -/
def buildNextLevel (K : Str → Str) : List Str → List Str
  | [] => []
  | [a] => [hashPair K a a]
  | a :: b :: rest => hashPair K a b :: buildNextLevel K rest

theorem buildNextLevel_length (K : Str → Str) :
    ∀ l : List Str, (buildNextLevel K l).length = (l.length + 1) / 2
  | [] => rfl
  | [_] => by simp [buildNextLevel]
  | _ :: _ :: rest => by
    simp only [buildNextLevel, List.length_cons, buildNextLevel_length K rest]
    omega

/-- Fuel-based rendering of the `while (currentLevel.length > 1)` loop of
`buildTree`; `buildLevels` below supplies enough fuel, and
`buildLevels_eq` recovers the loop equation, so the fuel is invisible. -/
def buildLevelsAux (K : Str → Str) : Nat → List Str → List (List Str)
  | 0, cur => [cur]
  | fuel + 1, cur =>
    if cur.length ≤ 1 then [cur]
    else cur :: buildLevelsAux K fuel (buildNextLevel K cur)

theorem buildLevelsAux_congr (K : Str → Str) :
    ∀ fuel fuel' cur, cur.length ≤ fuel → cur.length ≤ fuel' →
      buildLevelsAux K fuel cur = buildLevelsAux K fuel' cur := by
  intro fuel
  induction fuel with
  | zero =>
    intro fuel' cur h _
    have hc : cur.length ≤ 1 := Nat.le_trans h (Nat.zero_le 1)
    cases fuel' with
    | zero => rfl
    | succ n => simp [buildLevelsAux, hc]
  | succ n ih =>
    intro fuel' cur h h'
    by_cases hc : cur.length ≤ 1
    · cases fuel' with
      | zero => simp [buildLevelsAux, hc]
      | succ m => simp [buildLevelsAux, hc]
    · cases fuel' with
      | zero => omega
      | succ m =>
        simp only [buildLevelsAux, if_neg hc]
        have hlen : (buildNextLevel K cur).length = (cur.length + 1) / 2 :=
          buildNextLevel_length K cur
        exact congrArg _ (ih m _ (by omega) (by omega))

/-- The `while (currentLevel.length > 1)` loop of `buildTree`: the list of
levels, from the given bottom level up to the first level of size ≤ 1. -/
def buildLevels (K : Str → Str) (cur : List Str) : List (List Str) :=
  buildLevelsAux K cur.length cur

/-- The loop equation of `buildLevels`. -/
theorem buildLevels_eq (K : Str → Str) (cur : List Str) :
    buildLevels K cur =
      if cur.length ≤ 1 then [cur]
      else cur :: buildLevels K (buildNextLevel K cur) := by
  by_cases hc : cur.length ≤ 1
  · rw [if_pos hc]
    match cur, hc with
    | [], _ => rfl
    | [a], _ => simp [buildLevels, buildLevelsAux]
  · rw [if_neg hc]
    obtain ⟨n, hn⟩ : ∃ n, cur.length = n + 2 := ⟨cur.length - 2, by omega⟩
    have hstep : buildLevels K cur =
        cur :: buildLevelsAux K (n + 1) (buildNextLevel K cur) := by
      simp only [buildLevels, hn, buildLevelsAux]
      rw [if_neg (by omega)]
    rw [hstep]
    refine congrArg _ (buildLevelsAux_congr K (n + 1) _ _ ?_ ?_)
    · rw [buildNextLevel_length, hn]
      omega
    · exact le_rfl

/-- The leaf normalization and sort performed by `buildTree`:
JS `Array.prototype.sort()` on strings (lexicographic, ascending). -/
def sortLeaves (hashes : List Str) : List Str :=
  List.insertionSort (· ≤ ·) (hashes.map normalizeHash)

/-- `buildTree` from `merkle.ts`: throws on an empty input (modelled as
`none`), otherwise normalizes, sorts, and folds levels up to the root. -/
def buildTree (K : Str → Str) (leaves : List Str) : Option (List (List Str)) :=
  if leaves.isEmpty then none
  else some (buildLevels K (sortLeaves leaves))

/-- `MerkleBatch` from `src/server/src/types/index.ts`.  The impure
metadata fields `batch_id` (current time + random bytes) and `created_at`
(current time) carry no information about the tree and are omitted. -/
structure MerkleBatch where
  root : Str
  leaves : List Str
  tree : List (List Str)
  leaf_count : Nat
deriving Repr, DecidableEq

/-- `MerkleProof` from `types/index.ts`. -/
structure MerkleProof where
  leaf : Str
  proof : List Str
  root : Str
  leaf_index : Nat
deriving Repr, DecidableEq

/-- `buildMerkleBatch` from `merkle.ts`, with its guards: empty input,
non-singleton root level, and a falsy root all throw (`none`). -/
def buildMerkleBatch (K : Str → Str) (hashes : List Str) : Option MerkleBatch :=
  if hashes.isEmpty then none
  else
    match buildTree K hashes with
    | none => none
    | some tree =>
      match tree.getLast? with
      | none => none
      | some rootLevel =>
        if rootLevel.length ≠ 1 then none
        else
          match rootLevel.head? with
          | none => none
          | some root =>
            if root.isEmpty then none
            else some ⟨root, (tree.head?).getD [], tree, hashes.length⟩

/-- `computeRoot` from `merkle.ts`: build a batch, return only the root. -/
def computeRoot (K : Str → Str) (hashes : List Str) : Option Str :=
  (buildMerkleBatch K hashes).map (·.root)

/-- `findLeafIndex` from `merkle.ts`: JS `findIndex` returning `-1` when
absent is modelled by `List.findIdx?` returning `none`. -/
def findLeafIndex (sortedLeaves : List Str) (targetLeaf : Str) : Option Nat :=
  sortedLeaves.findIdx? fun leaf =>
    jsLower leaf == jsLower (normalizeHash targetLeaf)

/-- The sibling-collecting loop of `generateProof`: one iteration per tree
level except the root level.  `currentLevel[siblingIndex] ??
currentLevel[currentIndex]` and the truthiness test `if (sibling)` are
modelled exactly (an empty string is falsy and would not be pushed). -/
def proofPath : List (List Str) → Nat → List Str
  | [], _ => []
  | [_], _ => []
  | level :: next :: rest, idx =>
    match level[if idx % 2 == 1 then idx - 1 else idx + 1]? with
    | some s =>
      if s.isEmpty then proofPath (next :: rest) (idx / 2)
      else s :: proofPath (next :: rest) (idx / 2)
    | none =>
      match level[idx]? with
      | some s =>
        if s.isEmpty then proofPath (next :: rest) (idx / 2)
        else s :: proofPath (next :: rest) (idx / 2)
      | none => proofPath (next :: rest) (idx / 2)

/-- `generateProof` from `merkle.ts`. -/
def generateProof (batch : MerkleBatch) (leafHash : Str) : Option MerkleProof :=
  match findLeafIndex batch.leaves leafHash with
  | none => none
  | some leafIndex =>
    some ⟨normalizeHash leafHash, proofPath batch.tree leafIndex,
      batch.root, leafIndex⟩

/-- `verifyProof` from `merkle.ts`: fold `hashPair` over the sibling path
and compare with the root, case-insensitively. -/
def verifyProof (K : Str → Str) (p : MerkleProof) : Bool :=
  let final := p.proof.foldl (hashPair K) (normalizeHash p.leaf)
  jsLower final == jsLower (normalizeHash p.root)

/-! ### Basic facts about the string normalization helpers -/

theorem toNat_ofNat_valid {m : Nat} (h : m < 55296) : (Char.ofNat m).toNat = m := by
  have hv : m.isValidChar := Or.inl h
  simp only [Char.ofNat, dif_pos hv, Char.ofNatAux, Char.toNat]
  simp [UInt32.toNat]

theorem lowerChar_idem (c : Char) : lowerChar (lowerChar c) = lowerChar c := by
  unfold lowerChar
  by_cases h : 65 ≤ c.toNat ∧ c.toNat ≤ 90
  · rw [if_pos h]
    have ht : (Char.ofNat (c.toNat + 32)).toNat = c.toNat + 32 :=
      toNat_ofNat_valid (by omega)
    rw [if_neg (by omega)]
  · rw [if_neg h, if_neg h]

theorem jsLower_idem (s : Str) : jsLower (jsLower s) = jsLower s := by
  simp [jsLower, List.map_map, Function.comp, lowerChar_idem]

theorem lowerChar_digit_zero : lowerChar '0' = '0' := by decide

theorem lowerChar_letter_x : lowerChar 'x' = 'x' := by decide

/-- `strip0x` of an already lower-case string is still lower-case. -/
theorem jsLower_strip0x_of_fixed {t : Str} (h : jsLower t = t) :
    jsLower (strip0x t) = strip0x t := by
  unfold strip0x
  split
  · show jsLower (t.drop 2) = t.drop 2
    unfold jsLower
    rw [List.map_drop]
    exact congrArg (List.drop 2) h
  · exact h

/-- The output of `normalizeHash` is already lower-case. -/
theorem jsLower_normalizeHash (s : Str) :
    jsLower (normalizeHash s) = normalizeHash s := by
  show jsLower ('0' :: 'x' :: strip0x (jsLower s)) = '0' :: 'x' :: strip0x (jsLower s)
  unfold jsLower
  simp only [List.map]
  rw [lowerChar_digit_zero, lowerChar_letter_x]
  exact congrArg₂ _ rfl (congrArg₂ _ rfl (jsLower_strip0x_of_fixed (jsLower_idem s)))

/-- `normalizeHash` only looks at the lower-cased input. -/
theorem normalizeHash_congr {a b : Str} (h : jsLower a = jsLower b) :
    normalizeHash a = normalizeHash b := by
  unfold normalizeHash
  rw [h]

theorem normalizeHash_idem (s : Str) :
    normalizeHash (normalizeHash s) = normalizeHash s := by
  have h1 : jsLower (normalizeHash s) = normalizeHash s := jsLower_normalizeHash s
  unfold normalizeHash
  rw [show jsLower ('0' :: 'x' :: strip0x (jsLower s)) =
      '0' :: 'x' :: strip0x (jsLower s) from h1]
  rfl

theorem normalizeHash_ne_nil (s : Str) : normalizeHash s ≠ [] := by
  simp [normalizeHash]

theorem hashPair_comm (K : Str → Str) (a b : Str) :
    hashPair K a b = hashPair K b a := by
  unfold hashPair sortPair
  rcases le_total (normalizeHash a) (normalizeHash b) with h | h
  · by_cases h' : normalizeHash b ≤ normalizeHash a
    · have : normalizeHash a = normalizeHash b := le_antisymm h h'
      simp [this]
    · simp [h, h']
  · by_cases h' : normalizeHash a ≤ normalizeHash b
    · have : normalizeHash a = normalizeHash b := le_antisymm h' h
      simp [this]
    · simp [h, h']

/-! ### Structural lemmas about the tree levels -/

/-- Hash strings as they appear as tree nodes: non-empty, and normalizing
them changes at most letter case (which is what lets `verifyProof`'s final
case-insensitive comparison line up with the raw stored root). -/
def GoodStr (e : Str) : Prop :=
  e ≠ [] ∧ jsLower (normalizeHash e) = jsLower e

/-- The keccak256 facts the completeness argument needs: every digest the
library returns lower-cases to a `0x`-prefixed string (ethers' keccak256
returns `0x` + 64 lower-case hex digits). -/
def KeccakLike (K : Str → Str) : Prop :=
  ∀ s, ∃ t, jsLower (K s) = '0' :: 'x' :: t

theorem goodStr_normalizeHash (x : Str) : GoodStr (normalizeHash x) := by
  refine ⟨normalizeHash_ne_nil x, ?_⟩
  rw [normalizeHash_idem]

theorem goodStr_of_keccak {K : Str → Str} (hK : KeccakLike K) (s : Str) :
    GoodStr (K s) := by
  obtain ⟨t, ht⟩ := hK s
  constructor
  · intro hnil
    rw [hnil] at ht
    exact absurd ht (by simp [jsLower])
  · have hnh : normalizeHash (K s) = jsLower (K s) := by
      unfold normalizeHash
      rw [ht]
      unfold strip0x
      simp
    rw [hnh, jsLower_idem]

/-- Every node of a level built by `buildNextLevel` is a keccak digest. -/
theorem buildNextLevel_mem (K : Str → Str) :
    ∀ l, ∀ e ∈ buildNextLevel K l, ∃ s, e = K s
  | [], _, h => absurd h (by simp [buildNextLevel])
  | [a], e, h => by
    simp only [buildNextLevel, List.mem_singleton] at h
    exact ⟨_, h⟩
  | a :: b :: rest, e, h => by
    simp only [buildNextLevel, List.mem_cons] at h
    rcases h with h | h
    · exact ⟨_, h⟩
    · exact buildNextLevel_mem K rest e h

theorem buildLevelsAux_head (K : Str → Str) (fuel : Nat) (cur : List Str) :
    (buildLevelsAux K fuel cur).head? = some cur := by
  cases fuel with
  | zero => rfl
  | succ n =>
    unfold buildLevelsAux
    split <;> rfl

theorem buildLevelsAux_ne_nil (K : Str → Str) (fuel : Nat) (cur : List Str) :
    buildLevelsAux K fuel cur ≠ [] := by
  intro h
  have := buildLevelsAux_head K fuel cur
  rw [h] at this
  exact absurd this (by simp)

theorem buildLevels_head (K : Str → Str) (cur : List Str) :
    (buildLevels K cur).head? = some cur :=
  buildLevelsAux_head K cur.length cur

/-- All entries of all levels are either original (normalized) leaves or
keccak digests; both are `GoodStr`. -/
theorem buildLevelsAux_good {K : Str → Str} (hK : KeccakLike K) :
    ∀ fuel cur, (∀ e ∈ cur, GoodStr e) →
      ∀ L ∈ buildLevelsAux K fuel cur, ∀ e ∈ L, GoodStr e := by
  intro fuel
  induction fuel with
  | zero =>
    intro cur hcur L hL e he
    simp only [buildLevelsAux, List.mem_singleton] at hL
    subst hL
    exact hcur e he
  | succ n ih =>
    intro cur hcur L hL e he
    unfold buildLevelsAux at hL
    split at hL
    · simp only [List.mem_singleton] at hL
      subst hL
      exact hcur e he
    · simp only [List.mem_cons] at hL
      rcases hL with rfl | hL
      · exact hcur e he
      · refine ih (buildNextLevel K cur) ?_ L hL e he
        intro x hx
        obtain ⟨s, rfl⟩ := buildNextLevel_mem K cur x hx
        exact goodStr_of_keccak hK s

/-- The last level of the level fold is a singleton. -/
theorem buildLevelsAux_last (K : Str → Str) :
    ∀ fuel cur, cur ≠ [] → cur.length ≤ fuel →
      ∃ r, (buildLevelsAux K fuel cur).getLast? = some [r] ∧
        ∃ L ∈ buildLevelsAux K fuel cur, r ∈ L := by
  intro fuel
  induction fuel with
  | zero =>
    intro cur hne hf
    interval_cases h : cur.length
    · exact absurd (List.length_eq_zero.mp h) hne
  | succ n ih =>
    intro cur hne hf
    unfold buildLevelsAux
    by_cases hc : cur.length ≤ 1
    · rw [if_pos hc]
      match cur, hne, hc with
      | [a], _, _ =>
        exact ⟨a, by simp, [a], by simp, by simp⟩
    · rw [if_neg hc]
      have hnext_len : (buildNextLevel K cur).length = (cur.length + 1) / 2 :=
        buildNextLevel_length K cur
      have hnext_ne : buildNextLevel K cur ≠ [] := by
        intro h
        rw [h] at hnext_len
        simp at hnext_len
        omega
      obtain ⟨r, hr, L, hL, hrL⟩ := ih (buildNextLevel K cur) hnext_ne (by omega)
      refine ⟨r, ?_, L, List.mem_cons_of_mem _ hL, hrL⟩
      obtain ⟨x, xs, hx⟩ := List.exists_cons_of_ne_nil
        (buildLevelsAux_ne_nil K n (buildNextLevel K cur))
      rw [hx] at hr ⊢
      rw [List.getLast?_cons_cons]
      exact hr

/-- `buildNextLevel` node by node: node `j` of the next level combines
nodes `2j` and `2j+1` of the current level (or `2j` with itself when
`2j+1` is past the end). -/
theorem buildNextLevel_getElem? (K : Str → Str) :
    ∀ (l : List Str) (j : Nat),
      (buildNextLevel K l)[j]? =
        match l[2 * j]?, l[2 * j + 1]? with
        | some a, some b => some (hashPair K a b)
        | some a, none => some (hashPair K a a)
        | none, _ => none
  | [], j => by simp [buildNextLevel]
  | [a], 0 => by simp [buildNextLevel]
  | [a], j + 1 => by
    have h1 : 2 * (j + 1) = 2 * j + 2 := by omega
    simp [buildNextLevel, h1]
  | a :: b :: rest, 0 => by
    simp [buildNextLevel]
  | a :: b :: rest, j + 1 => by
    have h1 : 2 * (j + 1) = 2 * j + 1 + 1 := by omega
    have h2 : 2 * (j + 1) + 1 = 2 * j + 1 + 1 + 1 := by omega
    simp only [buildNextLevel, h1, h2, List.getElem?_cons_succ]
    exact buildNextLevel_getElem? K rest j

/-- Folding `hashPair` along the prover's sibling path reproduces exactly
the builder's bottom-up computation: starting from the leaf at `idx`, the
fold lands on the single node of the last level. -/
theorem foldl_proofPath {K : Str → Str} (hK : KeccakLike K) :
    ∀ fuel (cur : List Str) (idx : Nat), cur.length ≤ fuel →
      idx < cur.length → (∀ e ∈ cur, GoodStr e) →
      ∀ c r, cur[idx]? = some c →
        (buildLevelsAux K fuel cur).getLast? = some [r] →
        List.foldl (hashPair K) c (proofPath (buildLevelsAux K fuel cur) idx) = r := by
  intro fuel
  induction fuel with
  | zero =>
    intro cur idx hf hidx
    omega
  | succ n ih =>
    intro cur idx hf hidx hgood c r hc hr
    by_cases hc1 : cur.length ≤ 1
    · have hidx0 : idx = 0 := by omega
      subst hidx0
      obtain ⟨a, ha⟩ : ∃ a, cur = [a] := by
        match cur, hidx, hc1 with
        | [a], _, _ => exact ⟨a, rfl⟩
      subst ha
      have hred : buildLevelsAux K (n + 1) [a] = [[a]] := by
        rw [buildLevelsAux]
        rw [if_pos (by simp)]
      rw [hred] at hr ⊢
      have hca : a = c := by simpa using hc
      have har : a = r := by simpa using hr
      simp only [proofPath, List.foldl_nil]
      rw [← hca, har]
    · have hunf : buildLevelsAux K (n + 1) cur =
          cur :: buildLevelsAux K n (buildNextLevel K cur) := by
        rw [buildLevelsAux]
        rw [if_neg hc1]
      have hnextlen : (buildNextLevel K cur).length = (cur.length + 1) / 2 :=
        buildNextLevel_length K cur
      have hnextgood : ∀ e ∈ buildNextLevel K cur, GoodStr e := by
        intro e he
        obtain ⟨s, rfl⟩ := buildNextLevel_mem K cur e he
        exact goodStr_of_keccak hK s
      have hj : idx / 2 < (buildNextLevel K cur).length := by omega
      obtain ⟨c', hc'⟩ : ∃ c', (buildNextLevel K cur)[idx / 2]? = some c' :=
        ⟨_, List.getElem?_eq_getElem hj⟩
      obtain ⟨x, xs, hx⟩ := List.exists_cons_of_ne_nil
        (buildLevelsAux_ne_nil K n (buildNextLevel K cur))
      rw [hunf, hx, List.getLast?_cons_cons] at hr
      have hr' : (buildLevelsAux K n (buildNextLevel K cur)).getLast? = some [r] := by
        rw [hx]
        exact hr
      have hrec : List.foldl (hashPair K) c'
          (proofPath (buildLevelsAux K n (buildNextLevel K cur)) (idx / 2)) = r :=
        ih (buildNextLevel K cur) (idx / 2) (by omega) hj hnextgood c' r hc' hr'
      rw [hx] at hrec
      rw [hunf, hx]
      have hnl := buildNextLevel_getElem? K cur (idx / 2)
      simp only [proofPath]
      rcases Nat.mod_two_eq_zero_or_one idx with hpar | hpar
      · rw [show (if idx % 2 == 1 then idx - 1 else idx + 1) = idx + 1 by
          simp [hpar]]
        rw [show 2 * (idx / 2) = idx by omega] at hnl
        split
        · rename_i s heq
          have hsne : ¬s.isEmpty = true := by
            have h1 := (hgood s (List.getElem?_mem heq)).1
            simpa [List.isEmpty_iff] using h1
          rw [if_neg hsne, List.foldl_cons]
          rw [hc, heq] at hnl
          rw [hnl] at hc'
          rw [Option.some.inj hc']
          exact hrec
        · rename_i heq
          split
          · rename_i s heq2
            rw [hc] at heq2
            have hsc : c = s := Option.some.inj heq2
            subst hsc
            have hsne : ¬c.isEmpty = true := by
              have h1 := (hgood c (List.getElem?_mem hc)).1
              simpa [List.isEmpty_iff] using h1
            rw [if_neg hsne, List.foldl_cons]
            rw [hc, heq] at hnl
            rw [hnl] at hc'
            rw [Option.some.inj hc']
            exact hrec
          · rename_i heq2
            rw [hc] at heq2
            cases heq2
      · rw [show (if idx % 2 == 1 then idx - 1 else idx + 1) = idx - 1 by
          simp [hpar]]
        rw [show 2 * (idx / 2) = idx - 1 by omega,
          show idx - 1 + 1 = idx by omega] at hnl
        split
        · rename_i s heq
          have hsne : ¬s.isEmpty = true := by
            have h1 := (hgood s (List.getElem?_mem heq)).1
            simpa [List.isEmpty_iff] using h1
          rw [if_neg hsne, List.foldl_cons]
          rw [hc, heq] at hnl
          rw [hnl] at hc'
          rw [hashPair_comm, Option.some.inj hc']
          exact hrec
        · rename_i heq
          rw [List.getElem?_eq_none_iff] at heq
          omega

/-! ### Batch construction -/

theorem sortLeaves_perm (S : List Str) : (sortLeaves S).Perm (S.map normalizeHash) :=
  List.perm_insertionSort _ _

theorem sortLeaves_length (S : List Str) : (sortLeaves S).length = S.length := by
  rw [(sortLeaves_perm S).length_eq, List.length_map]

theorem sortLeaves_good (S : List Str) : ∀ e ∈ sortLeaves S, GoodStr e := by
  intro e he
  rw [(sortLeaves_perm S).mem_iff, List.mem_map] at he
  obtain ⟨x, -, rfl⟩ := he
  exact goodStr_normalizeHash x

/-- On any non-empty input, `buildMerkleBatch` succeeds, and the batch it
returns is exactly the sorted normalized leaves with the level tower on
top. -/
theorem buildMerkleBatch_some {K : Str → Str} (hK : KeccakLike K)
    (S : List Str) (hS : S ≠ []) :
    ∃ r, GoodStr r ∧
      (buildLevels K (sortLeaves S)).getLast? = some [r] ∧
      buildMerkleBatch K S =
        some ⟨r, sortLeaves S, buildLevels K (sortLeaves S), S.length⟩ := by
  have hne : S.isEmpty = false := by
    simp [List.isEmpty_iff, hS]
  have hlne : sortLeaves S ≠ [] := by
    intro hnil
    have := sortLeaves_length S
    rw [hnil] at this
    exact hS (List.length_eq_zero.mp this.symm)
  obtain ⟨r, hr, L, hL, hrL⟩ :=
    buildLevelsAux_last K (sortLeaves S).length (sortLeaves S) hlne le_rfl
  have hgr : GoodStr r :=
    buildLevelsAux_good hK (sortLeaves S).length (sortLeaves S)
      (sortLeaves_good S) L hL r hrL
  have hrempty : r.isEmpty = false := by
    have h1 := hgr.1
    simp [List.isEmpty_iff, h1]
  have hr2 : (buildLevels K (sortLeaves S)).getLast? = some [r] := hr
  refine ⟨r, hgr, hr2, ?_⟩
  unfold buildMerkleBatch buildTree
  rw [hne]
  simp only [Bool.false_eq_true, if_false]
  rw [hr2, buildLevels_head K (sortLeaves S)]
  simp [hrempty]

/-- Claim C1: for every non-empty list of hashes and every member hash,
proof generation on the built batch succeeds and the generated proof
verifies — the prover's use-the-node-itself fallback matches the builder's
duplicate-the-last-node rule at every level, for any keccak-shaped digest
function. -/
theorem generateProof_complete {K : Str → Str} (hK : KeccakLike K)
    (S : List Str) (hS : S ≠ []) (h : Str) (hmem : h ∈ S) :
    ∃ b p, buildMerkleBatch K S = some b ∧ generateProof b h = some p ∧
      verifyProof K p = true := by
  obtain ⟨r, hgr, hlast, hbatch⟩ := buildMerkleBatch_some hK S hS
  have hmemn : normalizeHash h ∈ sortLeaves S := by
    rw [(sortLeaves_perm S).mem_iff, List.mem_map]
    exact ⟨h, hmem, rfl⟩
  have hex : ∃ x ∈ sortLeaves S,
      (jsLower x == jsLower (normalizeHash h)) = true :=
    ⟨normalizeHash h, hmemn, by simp⟩
  obtain ⟨i, hfind⟩ : ∃ i, findLeafIndex (sortLeaves S) h = some i :=
    ⟨_, List.findIdx?_eq_some_of_exists (by simpa using hex)⟩
  obtain ⟨hi, hieq⟩ := List.findIdx?_eq_some_iff_findIdx_eq.mp
    (by simpa [findLeafIndex] using hfind)
  have hpi : (jsLower ((sortLeaves S).get ⟨i, hi⟩) ==
      jsLower (normalizeHash h)) = true := by
    have hw : (sortLeaves S)[(sortLeaves S).findIdx
        (fun leaf => jsLower leaf == jsLower (normalizeHash h))]? =
        some ((sortLeaves S).get ⟨i, hi⟩) := by
      rw [hieq]
      exact List.getElem?_eq_getElem hi
    simpa using List.findIdx_of_getElem?_eq_some hw
  have helem : (sortLeaves S).get ⟨i, hi⟩ = normalizeHash h := by
    have hmem' : (sortLeaves S).get ⟨i, hi⟩ ∈ sortLeaves S := List.getElem_mem hi
    rw [(sortLeaves_perm S).mem_iff, List.mem_map] at hmem'
    obtain ⟨x, -, hx⟩ := hmem'
    have hlow : jsLower ((sortLeaves S).get ⟨i, hi⟩) = jsLower (normalizeHash h) := by
      simpa using hpi
    calc (sortLeaves S).get ⟨i, hi⟩
        = jsLower ((sortLeaves S).get ⟨i, hi⟩) := by rw [← hx, jsLower_normalizeHash]
      _ = jsLower (normalizeHash h) := hlow
      _ = normalizeHash h := jsLower_normalizeHash h
  refine ⟨⟨r, sortLeaves S, buildLevels K (sortLeaves S), S.length⟩,
    ⟨normalizeHash h, proofPath (buildLevels K (sortLeaves S)) i, r, i⟩,
    hbatch, ?_, ?_⟩
  · unfold generateProof
    rw [show findLeafIndex (sortLeaves S) h = some i from hfind]
  · unfold verifyProof
    have hfold : List.foldl (hashPair K) (normalizeHash (normalizeHash h))
        (proofPath (buildLevels K (sortLeaves S)) i) = r := by
      rw [normalizeHash_idem]
      exact foldl_proofPath hK (sortLeaves S).length (sortLeaves S) i le_rfl hi
        (sortLeaves_good S) (normalizeHash h) r
        (by rw [List.getElem?_eq_getElem hi]; exact congrArg some helem) hlast
    simp only [hfold]
    rw [hgr.2]
    simp

/-- Adjacent levels of the tower are related by `buildNextLevel`. -/
theorem buildLevelsAux_adj (K : Str → Str) :
    ∀ fuel (cur : List Str), cur.length ≤ fuel →
      ∀ i L L', (buildLevelsAux K fuel cur)[i]? = some L →
        (buildLevelsAux K fuel cur)[i + 1]? = some L' →
        L' = buildNextLevel K L := by
  intro fuel
  induction fuel with
  | zero =>
    intro cur hf i L L' hL hL'
    simp only [buildLevelsAux] at hL'
    rcases i with _ | j <;> simp at hL'
  | succ n ih =>
    intro cur hf i L L' hL hL'
    by_cases hc1 : cur.length ≤ 1
    · have hred : buildLevelsAux K (n + 1) cur = [cur] := by
        rw [buildLevelsAux, if_pos hc1]
      rw [hred] at hL hL'
      rcases i with _ | j <;> simp at hL'
    · have hunf : buildLevelsAux K (n + 1) cur =
          cur :: buildLevelsAux K n (buildNextLevel K cur) := by
        rw [buildLevelsAux]
        rw [if_neg hc1]
      rw [hunf] at hL hL'
      have hnl : (buildNextLevel K cur).length = (cur.length + 1) / 2 :=
        buildNextLevel_length K cur
      rcases i with _ | j
      · simp only [List.getElem?_cons_zero, Option.some.injEq] at hL
        simp only [List.getElem?_cons_succ] at hL'
        have hhead := buildLevelsAux_head K n (buildNextLevel K cur)
        rw [List.head?_eq_getElem?] at hhead
        rw [hhead] at hL'
        rw [← hL]
        exact (Option.some.inj hL').symm
      · simp only [List.getElem?_cons_succ] at hL hL'
        exact ih (buildNextLevel K cur) (by omega) j L L' hL hL'

/-- Levels of length one and a known head are singletons. -/
theorem eq_singleton_of_length_one {α : Type} {l : List α} {a : α}
    (h1 : l.length = 1) (h2 : l.head? = some a) : l = [a] := by
  match l, h1 with
  | [x], _ =>
    simp only [List.head?_cons, Option.some.injEq] at h2
    rw [h2]

theorem buildLevels_length_four {K : Str → Str} {cur : List Str}
    (h4 : cur.length = 4) : (buildLevels K cur).length = 3 := by
  have hn1 : (buildNextLevel K cur).length = 2 := by
    rw [buildNextLevel_length]
    omega
  have hn2 : (buildNextLevel K (buildNextLevel K cur)).length = 1 := by
    rw [buildNextLevel_length, hn1]
  rw [buildLevels_eq, if_neg (by omega), buildLevels_eq, if_neg (by omega),
    buildLevels_eq, if_pos (by omega)]
  rfl

theorem buildLevels_length_three {K : Str → Str} {cur : List Str}
    (h3 : cur.length = 3) : (buildLevels K cur).length = 3 := by
  have hn1 : (buildNextLevel K cur).length = 2 := by
    rw [buildNextLevel_length]
    omega
  have hn2 : (buildNextLevel K (buildNextLevel K cur)).length = 1 := by
    rw [buildNextLevel_length, hn1]
  rw [buildLevels_eq, if_neg (by omega), buildLevels_eq, if_neg (by omega),
    buildLevels_eq, if_pos (by omega)]
  rfl

/-- Claim C8: every batch built from a non-empty input satisfies the
structural invariant: level 0 is the sorted normalized leaves, each level
is `ceil(previous / 2)` in size, the final level is exactly `[root]`, and
4-leaf as well as 3-leaf batches have a tree of height 3. -/
theorem buildMerkleBatch_invariants (K : Str → Str) (hashes : List Str)
    (b : MerkleBatch) (hb : buildMerkleBatch K hashes = some b) :
    b.leaves = sortLeaves hashes ∧
    b.tree.head? = some (sortLeaves hashes) ∧
    (∀ i L L', b.tree[i]? = some L → b.tree[i + 1]? = some L' →
      L'.length = (L.length + 1) / 2) ∧
    b.tree.getLast? = some [b.root] ∧
    b.leaf_count = hashes.length ∧
    (hashes.length = 4 → b.tree.length = 3) ∧
    (hashes.length = 3 → b.tree.length = 3) := by
  unfold buildMerkleBatch buildTree at hb
  by_cases hne : hashes.isEmpty = true
  · rw [if_pos hne] at hb
    cases hb
  · rw [if_neg hne, if_neg hne] at hb
    simp only [] at hb
    split at hb
    · cases hb
    · rename_i rootLevel hlast
      split at hb
      · cases hb
      · rename_i hlen1
        split at hb
        · cases hb
        · rename_i root hhead
          split at hb
          · cases hb
          · rename_i hroot
            have hb' : b = ⟨root, ((buildLevels K (sortLeaves hashes)).head?).getD [],
                buildLevels K (sortLeaves hashes), hashes.length⟩ :=
              (Option.some.inj hb).symm
            have hRL : rootLevel = [root] :=
              eq_singleton_of_length_one (by omega) hhead
            subst hb'
            rw [buildLevels_head K (sortLeaves hashes)]
            refine ⟨rfl, rfl, ?_, ?_, rfl, ?_, ?_⟩
            · intro i L L' hL hL'
              have := buildLevelsAux_adj K (sortLeaves hashes).length
                (sortLeaves hashes) le_rfl i L L' hL hL'
              rw [this, buildNextLevel_length]
            · show (buildLevels K (sortLeaves hashes)).getLast? = some [root]
              rw [hlast, hRL]
            · intro h4
              exact buildLevels_length_four (by rw [sortLeaves_length, h4])
            · intro h3
              exact buildLevels_length_three (by rw [sortLeaves_length, h3])

/-! ### Permutation and case invariance of the root -/

theorem sortLeaves_eq_of_map_perm {S T : List Str}
    (h : (S.map normalizeHash).Perm (T.map normalizeHash)) :
    sortLeaves S = sortLeaves T := by
  unfold sortLeaves
  have h1 : List.Sorted (· ≤ ·)
      (List.insertionSort (· ≤ ·) (S.map normalizeHash)) :=
    List.sorted_insertionSort _ _
  have h2 : List.Sorted (· ≤ ·)
      (List.insertionSort (· ≤ ·) (T.map normalizeHash)) :=
    List.sorted_insertionSort _ _
  exact List.eq_of_perm_of_sorted
    (((List.perm_insertionSort _ _).trans h).trans
      (List.perm_insertionSort _ _).symm) h1 h2

theorem buildMerkleBatch_eq_of_map_perm (K : Str → Str) {S T : List Str}
    (h : (S.map normalizeHash).Perm (T.map normalizeHash)) :
    buildMerkleBatch K S = buildMerkleBatch K T := by
  have hlen : S.length = T.length := by
    have := h.length_eq
    simpa using this
  have hsort : sortLeaves S = sortLeaves T := sortLeaves_eq_of_map_perm h
  have hemp : S.isEmpty = T.isEmpty := by
    rcases S with _ | ⟨a, s⟩ <;> rcases T with _ | ⟨b, t⟩ <;> simp_all
  unfold buildMerkleBatch buildTree
  rw [hlen, hsort, hemp]

/-- Claim C4 (amended): the root depends only on the multiset of
normalized hashes — permutations and case changes do not affect it, but
multiplicity does matter (see the counterexample for the set version). -/
theorem computeRoot_multiset_invariant (K : Str → Str) (S T : List Str)
    (h : (S.map normalizeHash).Perm (T.map normalizeHash)) :
    computeRoot K S = computeRoot K T := by
  unfold computeRoot
  rw [buildMerkleBatch_eq_of_map_perm K h]

/-- Claim C4, counterexample: two inputs with the same *set* of normalized
hashes but different multiplicities produce different roots — the builder
never deduplicates, so the singleton `["0xaa"]` has root `0xaa` while
`["0xaa", "0xaa"]` has the root `keccak(combine("0xaa","0xaa"))`. -/
theorem computeRoot_set_cex :
    ((["0xaa".data, "0xaa".data] : List Str).map normalizeHash).toFinset =
      ((["0xaa".data] : List Str).map normalizeHash).toFinset ∧
    computeRoot (fun s => '0' :: 'x' :: s) ["0xaa".data, "0xaa".data] ≠
      computeRoot (fun s => '0' :: 'x' :: s) ["0xaa".data] := by
  constructor
  · decide
  · decide

theorem map_normalizeHash_eq_of_lower {S Q : List Str}
    (h : List.Forall₂ (fun a b => jsLower a = jsLower b) S Q) :
    S.map normalizeHash = Q.map normalizeHash := by
  induction h with
  | nil => rfl
  | cons hab _ ih =>
    simp only [List.map_cons, ih, List.cons.injEq, and_true]
    exact normalizeHash_congr hab

/-- Claim C3: for a non-empty input, the computed root is unchanged under
any permutation of the input and under letter-case variation of the
individual hash strings. -/
theorem computeRoot_perm_case_invariant (K : Str → Str) (S P Q : List Str)
    (_hS : S ≠ []) (hperm : S.Perm P)
    (hcase : List.Forall₂ (fun a b => jsLower a = jsLower b) S Q) :
    computeRoot K S = computeRoot K P ∧ computeRoot K Q = computeRoot K S := by
  constructor
  · exact computeRoot_multiset_invariant K S P (hperm.map normalizeHash)
  · exact computeRoot_multiset_invariant K Q S
      (by rw [map_normalizeHash_eq_of_lower hcase])

/-! ### Concrete witnesses for the Merkle claims -/

theorem generateProof_complete_witness :
    ∃ b p, buildMerkleBatch (fun s => '0' :: 'x' :: jsLower s)
        ["0xBB".data, "0xaa".data, "0xcc".data] = some b ∧
      generateProof b "0xcc".data = some p ∧
      verifyProof (fun s => '0' :: 'x' :: jsLower s) p = true :=
  generateProof_complete
    (fun s => ⟨jsLower (jsLower s),
      by simp [jsLower, lowerChar_digit_zero, lowerChar_letter_x]⟩)
    ["0xBB".data, "0xaa".data, "0xcc".data] (by decide)
    "0xcc".data (by decide)

theorem computeRoot_perm_case_invariant_witness :
    computeRoot (fun s => '0' :: 'x' :: s) ["0xAB".data, "0xcd".data] =
      computeRoot (fun s => '0' :: 'x' :: s) ["0xcd".data, "0xAB".data] ∧
    computeRoot (fun s => '0' :: 'x' :: s) ["0xab".data, "0xCD".data] =
      computeRoot (fun s => '0' :: 'x' :: s) ["0xAB".data, "0xcd".data] :=
  computeRoot_perm_case_invariant (fun s => '0' :: 'x' :: s)
    ["0xAB".data, "0xcd".data] ["0xcd".data, "0xAB".data]
    ["0xab".data, "0xCD".data] (by decide) (by decide)
    (List.Forall₂.cons (by decide) (List.Forall₂.cons (by decide)
      List.Forall₂.nil))

theorem computeRoot_multiset_invariant_witness :
    computeRoot (fun s => '0' :: 'x' :: s) ["0xAA".data, "0xbb".data] =
      computeRoot (fun s => '0' :: 'x' :: s) ["0xBB".data, "0xaa".data] :=
  computeRoot_multiset_invariant (fun s => '0' :: 'x' :: s)
    ["0xAA".data, "0xbb".data] ["0xBB".data, "0xaa".data] (by decide)

theorem buildMerkleBatch_invariants_witness :
    buildMerkleBatch (fun s => '0' :: 'x' :: s)
        ["0xd".data, "0xa".data, "0xc".data, "0xb".data] =
      some ⟨['0', 'x', '0', 'x', '0', 'x', 'a', 'b', '0', 'x', 'c', 'd'],
        [['0', 'x', 'a'], ['0', 'x', 'b'], ['0', 'x', 'c'], ['0', 'x', 'd']],
        [[['0', 'x', 'a'], ['0', 'x', 'b'], ['0', 'x', 'c'], ['0', 'x', 'd']],
         [['0', 'x', '0', 'x', 'a', 'b'], ['0', 'x', '0', 'x', 'c', 'd']],
         [['0', 'x', '0', 'x', '0', 'x', 'a', 'b', '0', 'x', 'c', 'd']]],
        4⟩ ∧
    (MerkleBatch.mk ['0', 'x', '0', 'x', '0', 'x', 'a', 'b', '0', 'x', 'c', 'd']
        [['0', 'x', 'a'], ['0', 'x', 'b'], ['0', 'x', 'c'], ['0', 'x', 'd']]
        [[['0', 'x', 'a'], ['0', 'x', 'b'], ['0', 'x', 'c'], ['0', 'x', 'd']],
         [['0', 'x', '0', 'x', 'a', 'b'], ['0', 'x', '0', 'x', 'c', 'd']],
         [['0', 'x', '0', 'x', '0', 'x', 'a', 'b', '0', 'x', 'c', 'd']]]
        4).leaves =
      sortLeaves ["0xd".data, "0xa".data, "0xc".data, "0xb".data] ∧
    (["0xd".data, "0xa".data, "0xc".data, "0xb".data] : List Str).length = 4 ∧
    (MerkleBatch.mk ['0', 'x', '0', 'x', '0', 'x', 'a', 'b', '0', 'x', 'c', 'd']
        [['0', 'x', 'a'], ['0', 'x', 'b'], ['0', 'x', 'c'], ['0', 'x', 'd']]
        [[['0', 'x', 'a'], ['0', 'x', 'b'], ['0', 'x', 'c'], ['0', 'x', 'd']],
         [['0', 'x', '0', 'x', 'a', 'b'], ['0', 'x', '0', 'x', 'c', 'd']],
         [['0', 'x', '0', 'x', '0', 'x', 'a', 'b', '0', 'x', 'c', 'd']]]
        4).tree.length = 3 := by
  have hb : buildMerkleBatch (fun s => '0' :: 'x' :: s)
      ["0xd".data, "0xa".data, "0xc".data, "0xb".data] =
      some ⟨['0', 'x', '0', 'x', '0', 'x', 'a', 'b', '0', 'x', 'c', 'd'],
        [['0', 'x', 'a'], ['0', 'x', 'b'], ['0', 'x', 'c'], ['0', 'x', 'd']],
        [[['0', 'x', 'a'], ['0', 'x', 'b'], ['0', 'x', 'c'], ['0', 'x', 'd']],
         [['0', 'x', '0', 'x', 'a', 'b'], ['0', 'x', '0', 'x', 'c', 'd']],
         [['0', 'x', '0', 'x', '0', 'x', 'a', 'b', '0', 'x', 'c', 'd']]],
        4⟩ := by decide
  obtain ⟨h1, -, -, -, -, h6, -⟩ :=
    buildMerkleBatch_invariants (fun s => '0' :: 'x' :: s)
      ["0xd".data, "0xa".data, "0xc".data, "0xb".data] _ hb
  exact ⟨hb, h1, by decide, h6 (by decide)⟩

/-! ### Tamper-detection: collision-freedom infrastructure (claim C5) -/

/-- The exact string `hashPair` feeds to keccak256. -/
def kInput (l r : Str) : Str :=
  (sortPair (normalizeHash l) (normalizeHash r)).1 ++
    (sortPair (normalizeHash l) (normalizeHash r)).2.drop 2

theorem hashPair_eq_kInput (K : Str → Str) (l r : Str) :
    hashPair K l r = K (kInput l r) := rfl

/-- All keccak inputs produced while folding a sibling path from `c`. -/
def kInputs (K : Str → Str) : Str → List Str → List Str
  | _, [] => []
  | c, s :: rest => kInput c s :: kInputs K (K (kInput c s)) rest

/-- `K` is collision-free (up to hash normalization) on the strings of
`I`. Real keccak256 has no known collisions at all; only this finite
restriction of that idealization is ever used. -/
def KInjOn (K : Str → Str) (I : List Str) : Prop :=
  ∀ a ∈ I, ∀ b ∈ I, normalizeHash (K a) = normalizeHash (K b) → a = b

/-- `K`'s digests normalize to the common hash-string length `L` on `I`
(ethers' keccak256 always returns 66 characters). -/
def KLenOn (K : Str → Str) (I : List Str) (L : Nat) : Prop :=
  ∀ a ∈ I, (normalizeHash (K a)).length = L

theorem sortPair_comm (a b : Str) : sortPair a b = sortPair b a := by
  unfold sortPair
  rcases le_total a b with h | h
  · by_cases h' : b ≤ a
    · have : a = b := le_antisymm h h'
      simp [this]
    · simp [h, h']
  · by_cases h' : a ≤ b
    · have : a = b := le_antisymm h' h
      simp [this]
    · simp [h, h']

theorem kInput_comm (a b : Str) : kInput a b = kInput b a := by
  unfold kInput
  rw [sortPair_comm (normalizeHash a) (normalizeHash b)]

theorem sortPair_cases (a b : Str) :
    sortPair a b = (a, b) ∨ sortPair a b = (b, a) := by
  unfold sortPair
  by_cases h : a ≤ b
  · left
    rw [if_pos h]
  · right
    rw [if_neg h]

/-- A shared second element forces equal first elements. -/
theorem sortPair_shared {a a' b : Str} (h : sortPair a b = sortPair a' b) :
    a = a' := by
  unfold sortPair at h
  by_cases h1 : a ≤ b <;> by_cases h2 : a' ≤ b
  · rw [if_pos h1, if_pos h2] at h
    exact (Prod.mk.injEq .. ▸ h).1
  · rw [if_pos h1, if_neg h2] at h
    obtain ⟨hab, hba⟩ := Prod.mk.injEq .. ▸ h
    rw [hab, ← hba]
  · rw [if_neg h1, if_pos h2] at h
    obtain ⟨hab, hba⟩ := Prod.mk.injEq .. ▸ h
    rw [← hab, hba]
  · rw [if_neg h1, if_neg h2] at h
    exact (Prod.mk.injEq .. ▸ h).2

theorem normalizeHash_length_ge_two (x : Str) :
    2 ≤ (normalizeHash x).length := by
  simp [normalizeHash]

/-- A normalized hash is its `0x` prefix plus its own tail. -/
theorem normalizeHash_eq_prefix_drop (x : Str) :
    normalizeHash x = '0' :: 'x' :: (normalizeHash x).drop 2 := rfl

theorem kInput_length (l r : Str) :
    (kInput l r).length =
      (normalizeHash l).length + (normalizeHash r).length - 2 := by
  have h2l := normalizeHash_length_ge_two l
  have h2r := normalizeHash_length_ge_two r
  unfold kInput
  rcases sortPair_cases (normalizeHash l) (normalizeHash r) with h | h <;>
    (rw [h]; simp; omega)

/-- Distinct first arguments with a shared second argument of the same
length give distinct keccak inputs. -/
theorem kInput_ne_fst {c c' s : Str} {L : Nat}
    (hc : (normalizeHash c).length = L)
    (hs : (normalizeHash s).length = L)
    (hne : normalizeHash c ≠ normalizeHash c') :
    kInput c s ≠ kInput c' s := by
  intro heq
  by_cases hL : (normalizeHash c').length = L
  · -- equal lengths: the concatenation splits uniquely at `L`
    have hfst : ∀ x y : Str, (normalizeHash x).length = L →
        (normalizeHash y).length = L →
        ((sortPair (normalizeHash x) (normalizeHash y)).1).length = L ∧
        ((sortPair (normalizeHash x) (normalizeHash y)).2).length = L := by
      intro x y hx hy
      rcases sortPair_cases (normalizeHash x) (normalizeHash y) with h | h
      · rw [h]
        exact ⟨hx, hy⟩
      · rw [h]
        exact ⟨hy, hx⟩
    obtain ⟨hf1, hs1⟩ := hfst c s hc hs
    obtain ⟨hf2, hs2⟩ := hfst c' s hL hs
    unfold kInput at heq
    obtain ⟨he1, he2⟩ := List.append_inj heq (by rw [hf1, hf2])
    have hsecond : (sortPair (normalizeHash c) (normalizeHash s)).2 =
        (sortPair (normalizeHash c') (normalizeHash s)).2 := by
      have hx : ∀ x y : Str, (sortPair (normalizeHash x) (normalizeHash y)).2 =
          '0' :: 'x' :: ((sortPair (normalizeHash x) (normalizeHash y)).2.drop 2) := by
        intro x y
        rcases sortPair_cases (normalizeHash x) (normalizeHash y) with h | h <;>
          rw [h] <;> exact normalizeHash_eq_prefix_drop _
      rw [hx c s, hx c' s, he2]
    have hpair : sortPair (normalizeHash c) (normalizeHash s) =
        sortPair (normalizeHash c') (normalizeHash s) :=
      Prod.ext he1 hsecond
    exact hne (sortPair_shared hpair)
  · -- different lengths: the keccak inputs have different lengths
    have h1 := kInput_length c s
    have h2 := kInput_length c' s
    rw [heq, h2] at h1
    have hc2 := normalizeHash_length_ge_two c
    have hc2' := normalizeHash_length_ge_two c'
    have hs2 := normalizeHash_length_ge_two s
    omega

/-- Distinct second arguments with a shared first argument of the same
length give distinct keccak inputs. -/
theorem kInput_ne_snd {c s s' : Str} {L : Nat}
    (hc : (normalizeHash c).length = L)
    (hs : (normalizeHash s).length = L)
    (hne : normalizeHash s ≠ normalizeHash s') :
    kInput c s ≠ kInput c s' := by
  rw [kInput_comm c s, kInput_comm c s']
  exact kInput_ne_fst hs hc hne

theorem kInputs_append (K : Str → Str) :
    ∀ (l₁ l₂ : List Str) (c : Str),
      kInputs K c (l₁ ++ l₂) =
        kInputs K c l₁ ++ kInputs K (List.foldl (hashPair K) c l₁) l₂
  | [], l₂, c => rfl
  | x :: rest, l₂, c => by
    simp only [List.cons_append, kInputs, List.foldl_cons,
      hashPair_eq_kInput, List.cons.injEq, true_and]
    exact kInputs_append K rest l₂ (K (kInput c x))

theorem foldl_hashPair_length {K : Str → Str} {L : Nat} :
    ∀ (path : List Str) (c : Str), (normalizeHash c).length = L →
      KLenOn K (kInputs K c path) L →
      (normalizeHash (List.foldl (hashPair K) c path)).length = L
  | [], c, hc, _ => hc
  | x :: rest, c, hc, hlen => by
    simp only [List.foldl_cons, hashPair_eq_kInput]
    refine foldl_hashPair_length rest (K (kInput c x)) ?_ ?_
    · exact hlen (kInput c x) (by simp [kInputs])
    · intro a ha
      exact hlen a (by simp [kInputs, ha])

/-- Distinct (post-normalization) starting values fold to distinct final
values, as long as the digest function is collision-free on the inputs the
two folds feed it and all sibling hashes share the common length. -/
theorem foldl_hashPair_ne {K : Str → Str} {L : Nat} :
    ∀ (path : List Str) (c c' : Str),
      (∀ x ∈ path, (normalizeHash x).length = L) →
      (normalizeHash c).length = L →
      KInjOn K (kInputs K c path ++ kInputs K c' path) →
      KLenOn K (kInputs K c path) L →
      normalizeHash c ≠ normalizeHash c' →
      normalizeHash (List.foldl (hashPair K) c path) ≠
        normalizeHash (List.foldl (hashPair K) c' path)
  | [], c, c', _, _, _, _, hne => hne
  | x :: rest, c, c', hsib, hc, hinj, hlen, hne => by
    have hxL : (normalizeHash x).length = L := hsib x (by simp)
    have hdiff : kInput c x ≠ kInput c' x := kInput_ne_fst hc hxL hne
    have hmem1 : kInput c x ∈ kInputs K c (x :: rest) ++ kInputs K c' (x :: rest) := by
      simp [kInputs]
    have hmem2 : kInput c' x ∈ kInputs K c (x :: rest) ++ kInputs K c' (x :: rest) := by
      simp [kInputs]
    have hKne : normalizeHash (K (kInput c x)) ≠ normalizeHash (K (kInput c' x)) :=
      fun h => hdiff (hinj _ hmem1 _ hmem2 h)
    simp only [List.foldl_cons, hashPair_eq_kInput]
    refine foldl_hashPair_ne rest (K (kInput c x)) (K (kInput c' x))
      (fun y hy => hsib y (by simp [hy])) ?_ ?_ ?_ hKne
    · exact hlen (kInput c x) (by simp [kInputs])
    · intro a ha b hb h
      refine hinj a ?_ b ?_ h <;>
        (simp only [kInputs, List.mem_append, List.mem_cons] at ha hb ⊢; tauto)
    · intro a ha
      exact hlen a (by simp [kInputs, ha])

/-- All keccak inputs occurring in the original verification run and in
the leaf-tampered and sibling-tampered runs. -/
def tamperKInputs (K : Str → Str) (p : MerkleProof) (leaf' : Str)
    (alt : List Str) : List Str :=
  kInputs K (normalizeHash p.leaf) p.proof ++
    kInputs K (normalizeHash leaf') p.proof ++
    kInputs K (normalizeHash p.leaf) alt

theorem jsLower_eq_of_normalizeHash_eq {a b : Str}
    (h : jsLower a = jsLower b) : normalizeHash a = normalizeHash b :=
  normalizeHash_congr h

/-- Claim C5 (amended): `verifyProof` is total by construction, and for a
valid proof every mutation of the leaf, of a sibling, or of the root that
changes the *normalized* value of the field flips the verdict to `false`,
provided all hashes in the proof share one length and the digest function
is collision-free on the finitely many combinations the runs feed it.
(Mutations that only change letter case — the counterexample — leave the
normalized value, and hence the verdict, unchanged.) -/
theorem verifyProof_tamper {K : Str → Str} {L : Nat} (p : MerkleProof)
    (leaf' root' s' : Str) (pre post : List Str) (s : Str)
    (hsplit : p.proof = pre ++ s :: post)
    (hleafL : (normalizeHash p.leaf).length = L)
    (hsibL : ∀ x ∈ p.proof, (normalizeHash x).length = L)
    (hKinj : KInjOn K (tamperKInputs K p leaf' (pre ++ s' :: post)))
    (hKlen : KLenOn K (tamperKInputs K p leaf' (pre ++ s' :: post)) L)
    (hv : verifyProof K p = true) :
    (normalizeHash leaf' ≠ normalizeHash p.leaf →
      verifyProof K ⟨leaf', p.proof, p.root, p.leaf_index⟩ = false) ∧
    (normalizeHash s' ≠ normalizeHash s →
      verifyProof K ⟨p.leaf, pre ++ s' :: post, p.root, p.leaf_index⟩ = false) ∧
    (normalizeHash root' ≠ normalizeHash p.root →
      verifyProof K ⟨p.leaf, p.proof, root', p.leaf_index⟩ = false) := by
  have hvt : jsLower (p.proof.foldl (hashPair K) (normalizeHash p.leaf)) =
      jsLower (normalizeHash p.root) := by
    simpa [verifyProof] using hv
  refine ⟨?_, ?_, ?_⟩
  · -- tampered leaf
    intro hne
    have hne' : normalizeHash (normalizeHash p.leaf) ≠
        normalizeHash (normalizeHash leaf') := by
      rw [normalizeHash_idem, normalizeHash_idem]
      exact fun h => hne h.symm
    have hfne := foldl_hashPair_ne p.proof (normalizeHash p.leaf)
      (normalizeHash leaf') hsibL (by rw [normalizeHash_idem]; exact hleafL)
      (by
        intro a ha b hb h
        refine hKinj a ?_ b ?_ h <;>
          (simp only [tamperKInputs, List.mem_append] at ha hb ⊢; tauto))
      (by
        intro a ha
        refine hKlen a ?_
        simp only [tamperKInputs, List.mem_append]
        tauto)
      hne'
    simp only [verifyProof, beq_eq_false_iff_ne, ne_eq]
    intro heq
    exact hfne (jsLower_eq_of_normalizeHash_eq (heq.trans hvt.symm)).symm
  · -- tampered sibling
    intro hne
    have hsmem : s ∈ p.proof := by
      rw [hsplit]
      simp
    have hsL : (normalizeHash s).length = L := hsibL s hsmem
    have hpreL : ∀ x ∈ pre, (normalizeHash x).length = L := by
      intro x hx
      refine hsibL x ?_
      rw [hsplit]
      simp [hx]
    have hpostL : ∀ x ∈ post, (normalizeHash x).length = L := by
      intro x hx
      refine hsibL x ?_
      rw [hsplit]
      simp [hx]
    -- decompose the three runs' keccak inputs
    have hdec1 : kInputs K (normalizeHash p.leaf) p.proof =
        kInputs K (normalizeHash p.leaf) pre ++
          kInputs K (List.foldl (hashPair K) (normalizeHash p.leaf) pre)
            (s :: post) := by
      rw [hsplit, kInputs_append]
    have hdec3 : kInputs K (normalizeHash p.leaf) (pre ++ s' :: post) =
        kInputs K (normalizeHash p.leaf) pre ++
          kInputs K (List.foldl (hashPair K) (normalizeHash p.leaf) pre)
            (s' :: post) := by
      rw [kInputs_append]
    have hcpL : (normalizeHash (List.foldl (hashPair K)
        (normalizeHash p.leaf) pre)).length = L := by
      refine foldl_hashPair_length pre (normalizeHash p.leaf)
        (by rw [normalizeHash_idem]; exact hleafL) ?_
      intro a ha
      refine hKlen a ?_
      simp only [tamperKInputs, List.mem_append, hdec1]
      tauto
    have hdiff : kInput (List.foldl (hashPair K) (normalizeHash p.leaf) pre) s ≠
        kInput (List.foldl (hashPair K) (normalizeHash p.leaf) pre) s' :=
      kInput_ne_snd hcpL hsL (fun h => hne h.symm)
    have hmem1 : kInput (List.foldl (hashPair K) (normalizeHash p.leaf) pre) s ∈
        tamperKInputs K p leaf' (pre ++ s' :: post) := by
      unfold tamperKInputs
      rw [hdec1]
      exact List.mem_append_left _ (List.mem_append_left _
        (List.mem_append_right _ (List.mem_cons_self _ _)))
    have hmem3 : kInput (List.foldl (hashPair K) (normalizeHash p.leaf) pre) s' ∈
        tamperKInputs K p leaf' (pre ++ s' :: post) := by
      unfold tamperKInputs
      rw [hdec3]
      exact List.mem_append_right _
        (List.mem_append_right _ (List.mem_cons_self _ _))
    have hKne : normalizeHash (K (kInput (List.foldl (hashPair K)
          (normalizeHash p.leaf) pre) s)) ≠
        normalizeHash (K (kInput (List.foldl (hashPair K)
          (normalizeHash p.leaf) pre) s')) :=
      fun h => hdiff (hKinj _ hmem1 _ hmem3 h)
    have hfne := foldl_hashPair_ne post
      (K (kInput (List.foldl (hashPair K) (normalizeHash p.leaf) pre) s))
      (K (kInput (List.foldl (hashPair K) (normalizeHash p.leaf) pre) s'))
      hpostL
      (by
        refine hKlen _ ?_
        exact hmem1)
      (by
        intro a ha b hb h
        refine hKinj a ?_ b ?_ h <;>
          (simp only [tamperKInputs, List.mem_append, hdec1, hdec3,
            kInputs, List.mem_cons] at ha hb ⊢; tauto))
      (by
        intro a ha
        refine hKlen a ?_
        simp only [tamperKInputs, List.mem_append, hdec1, kInputs,
          List.mem_cons]
        tauto)
      hKne
    have hfold0 : p.proof.foldl (hashPair K) (normalizeHash p.leaf) =
        List.foldl (hashPair K)
          (K (kInput (List.foldl (hashPair K) (normalizeHash p.leaf) pre) s))
          post := by
      rw [hsplit, List.foldl_append, List.foldl_cons, hashPair_eq_kInput]
    have hfoldM : (pre ++ s' :: post).foldl (hashPair K) (normalizeHash p.leaf) =
        List.foldl (hashPair K)
          (K (kInput (List.foldl (hashPair K) (normalizeHash p.leaf) pre) s'))
          post := by
      rw [List.foldl_append, List.foldl_cons, hashPair_eq_kInput]
    simp only [verifyProof, beq_eq_false_iff_ne, ne_eq]
    intro heq
    rw [hfoldM] at heq
    rw [hfold0] at hvt
    exact hfne (jsLower_eq_of_normalizeHash_eq (hvt.trans heq.symm))
  · -- tampered root
    intro hne
    simp only [verifyProof, beq_eq_false_iff_ne, ne_eq]
    intro heq
    have h1 : jsLower (normalizeHash root') = jsLower (normalizeHash p.root) :=
      (heq.symm.trans hvt)
    rw [jsLower_normalizeHash, jsLower_normalizeHash] at h1
    exact hne h1

/-- Claim C5, counterexample: a single-byte mutation that only flips
letter case (here `a` → `A` in the third byte of the leaf) leaves
`verifyProof` returning `true`, because the leaf is re-normalized before
hashing — so not *every* single-byte mutation of a valid proof makes
verification fail.  The proof used is exactly the one `generateProof`
returns for the one-leaf batch of `0xaa`. -/
theorem verifyProof_case_mutation_cex :
    ((buildMerkleBatch (fun s => '0' :: 'x' :: s) ["0xaa".data]).bind
      (fun b => generateProof b "0xaa".data)) =
      some ⟨['0', 'x', 'a', 'a'], [], ['0', 'x', 'a', 'a'], 0⟩ ∧
    verifyProof (fun s => '0' :: 'x' :: s)
      ⟨['0', 'x', 'a', 'a'], [], ['0', 'x', 'a', 'a'], 0⟩ = true ∧
    verifyProof (fun s => '0' :: 'x' :: s)
      ⟨['0', 'x', 'A', 'a'], [], ['0', 'x', 'a', 'a'], 0⟩ = true := by
  refine ⟨by decide, by decide, by decide⟩

/-- A digest table for the tamper-detection witness: collision-free on the
three combinations the witness runs feed it. -/
def tamperK : Str → Str := fun a =>
  if a = "0xaabb".data then "0xab".data
  else if a = "0xbbcc".data then "0xbc".data
  else if a = "0xaadd".data then "0xad".data
  else "0xzz".data

theorem verifyProof_tamper_witness :
    verifyProof tamperK ⟨"0xcc".data, ["0xbb".data], "0xab".data, 0⟩ = false ∧
    verifyProof tamperK
      ⟨"0xaa".data, [] ++ "0xdd".data :: [], "0xab".data, 0⟩ = false ∧
    verifyProof tamperK ⟨"0xaa".data, ["0xbb".data], "0xee".data, 0⟩ = false := by
  obtain ⟨h1, h2, h3⟩ := @verifyProof_tamper tamperK 4
    ⟨"0xaa".data, ["0xbb".data], "0xab".data, 0⟩
    "0xcc".data "0xee".data "0xdd".data [] [] "0xbb".data
    rfl (by decide) (by decide) (by unfold KInjOn; decide)
    (by unfold KLenOn; decide) (by decide)
  exact ⟨h1 (by decide), h2 (by decide), h3 (by decide)⟩

/-! ### The JSON canonicalizer (`src/unnamed/part_004`) -/

/-- The `JsonValue | undefined` type of the canonicalizer: JSON-like
values, with JS `undefined` as an explicit constructor (`undef`) since the
canonicalizer treats it specially.  JS numbers are modelled as integers;
the float formatting of non-integral numbers is irrelevant to every claim.
JS objects are association lists in property order; JS object keys are
unique. -/
inductive Json where
  | str (s : Str)
  | num (n : Int)
  | jsbool (b : Bool)
  | null
  | undef
  | arr (elems : List Json)
  | obj (entries : List (Str × Json))

/-- JS `Object.keys(obj).sort()` applied to an entry list: a stable sort
of the entries by key.  The source sorts the keys first and then looks
each key up; with unique keys (a JS object invariant) and a stable sort
that is the same as sorting the processed entries. -/
def sortEntries (l : List (Str × Json)) : List (Str × Json) :=
  List.insertionSort (fun a b => a.1 ≤ b.1) l

mutual
/-- `canonicalizeValue` from the canonicalizer: scalars pass through,
arrays recurse element-wise dropping `undefined` elements, objects recurse
into values, drop `undefined`-valued keys, and sort keys. -/
def canonicalizeValue : Json → Json
  | .undef => .undef
  | .null => .null
  | .str s => .str s
  | .num n => .num n
  | .jsbool b => .jsbool b
  | .arr l => .arr (canonicalizeArr l)
  | .obj l => .obj (sortEntries (canonicalizeEntries l))

/-- `value.map(canonicalizeValue).filter(item => item !== undefined)`. -/
def canonicalizeArr : List Json → List Json
  | [] => []
  | x :: xs =>
    match canonicalizeValue x with
    | .undef => canonicalizeArr xs
    | v => v :: canonicalizeArr xs

/-- The body of `canonicalizeObject`: skip `undefined` values, recurse,
skip `undefined` results. -/
def canonicalizeEntries : List (Str × Json) → List (Str × Json)
  | [] => []
  | (k, v) :: rest =>
    match v with
    | .undef => canonicalizeEntries rest
    | _ =>
      match canonicalizeValue v with
      | .undef => canonicalizeEntries rest
      | cv => (k, cv) :: canonicalizeEntries rest
end

/-- Lower-case hex digit, as used by `JSON.stringify`'s `\u00XX` escapes. -/
def hexDigit (n : Nat) : Char :=
  if n < 10 then Char.ofNat (48 + n) else Char.ofNat (87 + n)

/-- One character of a JSON string literal, as `JSON.stringify` emits it. -/
def escapeChar (c : Char) : Str :=
  if c = '"' then ['\\', '"']
  else if c = '\\' then ['\\', '\\']
  else if c = '\x08' then ['\\', 'b']
  else if c = '\x09' then ['\\', 't']
  else if c = '\x0a' then ['\\', 'n']
  else if c = '\x0c' then ['\\', 'f']
  else if c = '\x0d' then ['\\', 'r']
  else if c.toNat < 32 then
    ['\\', 'u', '0', '0', hexDigit (c.toNat / 16), hexDigit (c.toNat % 16)]
  else [c]

/-- A JSON string literal. -/
def quoteStr (s : Str) : Str :=
  '"' :: (s.flatMap escapeChar ++ ['"'])

mutual
/-- `JSON.stringify` (compact form, the only form the code uses). -/
def stringify : Json → Str
  | .str s => quoteStr s
  | .num n => (toString n).data
  | .jsbool true => ('t' :: 'r' :: 'u' :: 'e' :: [])
  | .jsbool false => ('f' :: 'a' :: 'l' :: 's' :: 'e' :: [])
  | .null => ('n' :: 'u' :: 'l' :: 'l' :: [])
  | .undef => ('n' :: 'u' :: 'l' :: 'l' :: [])
  | .arr l => '[' :: (stringifyArr l ++ [']'])
  | .obj l => '\x7b' :: (stringifyObj l ++ ['\x7d'])

def stringifyArr : List Json → Str
  | [] => []
  | [x] => stringify x
  | x :: y :: rest => stringify x ++ ',' :: stringifyArr (y :: rest)

def stringifyObj : List (Str × Json) → Str
  | [] => []
  | [(k, v)] => quoteStr k ++ ':' :: stringify v
  | (k, v) :: e :: rest =>
    quoteStr k ++ ':' :: stringify v ++ ',' :: stringifyObj (e :: rest)
end

/-- `canonicalize` from the canonicalizer: throws (`none`) on `null`,
`undefined` and non-objects; accepts objects — and, because JS
`typeof [] === 'object'`, also arrays. -/
def canonicalize (v : Json) : Option Str :=
  match v with
  | .null => none
  | .undef => none
  | .str _ => none
  | .num _ => none
  | .jsbool _ => none
  | .arr _ => some (stringify (canonicalizeValue v))
  | .obj _ => some (stringify (canonicalizeValue v))

/-- `parseAndCanonicalize`: `JSON.parse` is the JS builtin, passed in as a
parameter; a `parse` failure is a throw (`none`), and the parsed value
goes through the same null/typeof guard before `canonicalize`. -/
def parseAndCanonicalize (parse : Str → Option Json) (jsonString : Str) :
    Option Str :=
  match parse jsonString with
  | none => none
  | some parsed =>
    match parsed with
    | .null => none
    | .undef => none
    | .str _ => none
    | .num _ => none
    | .jsbool _ => none
    | .arr _ => canonicalize parsed
    | .obj _ => canonicalize parsed

/-- `isCanonical`: re-canonicalize and compare byte-for-byte, catching all
errors as `false`. -/
def isCanonical (parse : Str → Option Json) (jsonString : Str) : Bool :=
  match parseAndCanonicalize parse jsonString with
  | none => false
  | some recanonicalized => jsonString == recanonicalized

/-- Claim C6, counterexample: a top-level array does **not** raise — JS
`typeof [] === 'object'`, so `canonicalize([])` passes the guard and
returns the canonical text `[]`. -/
theorem canonicalize_array_cex : canonicalize (Json.arr []) = some "[]".data := by
  decide

/-- Claim C6 (amended): `canonicalize` fails on every top-level scalar
(string, number, boolean) and on `null`/`undefined`, and succeeds on every
top-level mapping — but also on every top-level array, because a JS array
is an object to `typeof`. -/
theorem canonicalize_top_level :
    (∀ s, canonicalize (Json.str s) = none) ∧
    (∀ n, canonicalize (Json.num n) = none) ∧
    (∀ b, canonicalize (Json.jsbool b) = none) ∧
    canonicalize Json.null = none ∧
    canonicalize Json.undef = none ∧
    (∀ l, canonicalize (Json.obj l) =
      some (stringify (canonicalizeValue (Json.obj l)))) ∧
    (∀ l, canonicalize (Json.arr l) =
      some (stringify (canonicalizeValue (Json.arr l)))) :=
  ⟨fun _ => rfl, fun _ => rfl, fun _ => rfl, rfl, rfl,
    fun _ => rfl, fun _ => rfl⟩

/-! ### Idempotence of the canonicalizer (claim C7) -/

instance : IsTotal (Str × Json) (fun a b => a.1 ≤ b.1) :=
  ⟨fun a b => le_total a.1 b.1⟩

instance : IsTrans (Str × Json) (fun a b => a.1 ≤ b.1) :=
  ⟨fun _ _ _ h1 h2 => le_trans h1 h2⟩

theorem sortEntries_sorted (l : List (Str × Json)) :
    List.Sorted (fun a b => a.1 ≤ b.1) (sortEntries l) :=
  List.sorted_insertionSort _ l

theorem sortEntries_idem (l : List (Str × Json)) :
    sortEntries (sortEntries l) = sortEntries l :=
  (sortEntries_sorted l).insertionSort_eq

theorem sortEntries_perm (l : List (Str × Json)) :
    (sortEntries l).Perm l :=
  List.perm_insertionSort _ l

/-- `canonicalizeEntries` is the identity on entry lists whose values are
already canonical and not `undefined`. -/
theorem canonicalizeEntries_of_fixed :
    ∀ l : List (Str × Json),
      (∀ e ∈ l, canonicalizeValue e.2 = e.2 ∧ e.2 ≠ Json.undef) →
      canonicalizeEntries l = l
  | [], _ => rfl
  | (k, v) :: rest, h => by
    obtain ⟨hv, hvu⟩ := h (k, v) (List.mem_cons_self _ _)
    have hrest : canonicalizeEntries rest = rest :=
      canonicalizeEntries_of_fixed rest
        (fun e he => h e (List.mem_cons_of_mem _ he))
    cases v with
    | undef => exact absurd rfl hvu
    | null =>
      simp only [canonicalizeEntries]
      exact congrArg _ hrest
    | str s =>
      simp only [canonicalizeEntries]
      exact congrArg _ hrest
    | num n =>
      simp only [canonicalizeEntries]
      exact congrArg _ hrest
    | jsbool b =>
      simp only [canonicalizeEntries]
      exact congrArg _ hrest
    | arr m =>
      simp only [canonicalizeEntries]
      rw [show canonicalizeValue (Json.arr m) = Json.arr m from hv]
      exact congrArg _ hrest
    | obj m =>
      simp only [canonicalizeEntries]
      rw [show canonicalizeValue (Json.obj m) = Json.obj m from hv]
      exact congrArg _ hrest

mutual

/-- `canonicalizeValue` is idempotent. -/
theorem canonicalizeValue_idem :
    ∀ v, canonicalizeValue (canonicalizeValue v) = canonicalizeValue v
  | .undef => rfl
  | .null => rfl
  | .str _ => rfl
  | .num _ => rfl
  | .jsbool _ => rfl
  | .arr l => congrArg Json.arr (canonicalizeArr_idem l)
  | .obj l => by
    show Json.obj (sortEntries (canonicalizeEntries
        (sortEntries (canonicalizeEntries l)))) =
      Json.obj (sortEntries (canonicalizeEntries l))
    have hfix : ∀ e ∈ sortEntries (canonicalizeEntries l),
        canonicalizeValue e.2 = e.2 ∧ e.2 ≠ Json.undef := fun e he =>
      canonicalizeEntries_fixed l e ((sortEntries_perm _).mem_iff.mp he)
    rw [canonicalizeEntries_of_fixed _ hfix, sortEntries_idem]

theorem canonicalizeArr_idem :
    ∀ l, canonicalizeArr (canonicalizeArr l) = canonicalizeArr l
  | [] => rfl
  | x :: xs => by
    have hx := canonicalizeValue_idem x
    have hxs := canonicalizeArr_idem xs
    simp only [canonicalizeArr]
    cases hcv : canonicalizeValue x with
    | undef => exact hxs
    | null =>
      simp only [canonicalizeArr]
      exact congrArg _ hxs
    | str s =>
      simp only [canonicalizeArr]
      exact congrArg _ hxs
    | num n =>
      simp only [canonicalizeArr]
      exact congrArg _ hxs
    | jsbool b =>
      simp only [canonicalizeArr]
      exact congrArg _ hxs
    | arr m =>
      rw [hcv] at hx
      simp only [canonicalizeArr]
      rw [hx]
      exact congrArg _ hxs
    | obj m =>
      rw [hcv] at hx
      simp only [canonicalizeArr]
      rw [hx]
      exact congrArg _ hxs

/-- Every entry surviving `canonicalizeEntries` carries an already
canonical, non-`undefined` value. -/
theorem canonicalizeEntries_fixed :
    ∀ l, ∀ e ∈ canonicalizeEntries l,
      canonicalizeValue e.2 = e.2 ∧ e.2 ≠ Json.undef
  | [], e, he => absurd he (List.not_mem_nil e)
  | (k, v) :: rest, e, he => by
    have hrest := canonicalizeEntries_fixed rest
    cases v with
    | undef =>
      exact hrest e (by simpa [canonicalizeEntries] using he)
    | null =>
      simp only [canonicalizeEntries] at he
      rcases List.mem_cons.mp he with rfl | hmem
      · exact ⟨rfl, by simp⟩
      · exact hrest e hmem
    | str s =>
      simp only [canonicalizeEntries] at he
      rcases List.mem_cons.mp he with rfl | hmem
      · exact ⟨rfl, by simp⟩
      · exact hrest e hmem
    | num n =>
      simp only [canonicalizeEntries] at he
      rcases List.mem_cons.mp he with rfl | hmem
      · exact ⟨rfl, by simp⟩
      · exact hrest e hmem
    | jsbool b =>
      simp only [canonicalizeEntries] at he
      rcases List.mem_cons.mp he with rfl | hmem
      · exact ⟨rfl, by simp⟩
      · exact hrest e hmem
    | arr m =>
      have hidem := canonicalizeValue_idem (Json.arr m)
      simp only [canonicalizeEntries] at he
      rcases List.mem_cons.mp he with rfl | hmem
      · exact ⟨hidem, by simp [canonicalizeValue]⟩
      · exact hrest e hmem
    | obj m =>
      have hidem := canonicalizeValue_idem (Json.obj m)
      simp only [canonicalizeEntries] at he
      rcases List.mem_cons.mp he with rfl | hmem
      · exact ⟨hidem, by simp [canonicalizeValue]⟩
      · exact hrest e hmem

end

/-- Claim C7: a canonicalized mapping is recognized as canonical, and
canonicalization is idempotent through a parse/re-canonicalize round trip;
moreover `isCanonical t` holds iff parsing and re-canonicalizing
reproduces `t` byte-for-byte.  `JSON.parse` is the JS builtin, so it
enters as the `parse` parameter together with its documented behavior on
the canonical string (the `hp` hypothesis). -/
theorem isCanonical_of_canonicalize (parse : Str → Option Json)
    (l : List (Str × Json)) (s : Str)
    (hc : canonicalize (Json.obj l) = some s)
    (hp : parse s = some (canonicalizeValue (Json.obj l))) :
    isCanonical parse s = true ∧
    parseAndCanonicalize parse s = canonicalize (Json.obj l) ∧
    (∀ t, isCanonical parse t = true ↔ parseAndCanonicalize parse t = some t) := by
  have hs : s = stringify (canonicalizeValue (Json.obj l)) := by
    have h1 : some (stringify (canonicalizeValue (Json.obj l))) = some s := hc
    exact (Option.some.inj h1).symm
  have hpac : parseAndCanonicalize parse s = some s := by
    unfold parseAndCanonicalize
    rw [hp]
    show canonicalize (Json.obj (sortEntries (canonicalizeEntries l))) = some s
    unfold canonicalize
    show some (stringify (canonicalizeValue
      (Json.obj (sortEntries (canonicalizeEntries l))))) = some s
    rw [show Json.obj (sortEntries (canonicalizeEntries l)) =
      canonicalizeValue (Json.obj l) from rfl]
    rw [canonicalizeValue_idem, ← hs]
  refine ⟨?_, ?_, ?_⟩
  · unfold isCanonical
    rw [hpac]
    simp
  · rw [hpac, hc]
  · intro t
    unfold isCanonical
    cases hpt : parseAndCanonicalize parse t with
    | none => simp
    | some u =>
      constructor
      · intro h
        have : t = u := by simpa using h
        rw [this]
      · intro h
        have : u = t := Option.some.inj h
        simp [this]

theorem isCanonical_of_canonicalize_witness :
    isCanonical
      (fun t =>
        if t = "\x7b\"a\":2,\"z\":1\x7d".data then
          some (canonicalizeValue
            (Json.obj [("z".data, Json.num 1), ("a".data, Json.num 2)]))
        else none)
      "\x7b\"a\":2,\"z\":1\x7d".data = true ∧
    parseAndCanonicalize
      (fun t =>
        if t = "\x7b\"a\":2,\"z\":1\x7d".data then
          some (canonicalizeValue
            (Json.obj [("z".data, Json.num 1), ("a".data, Json.num 2)]))
        else none)
      "\x7b\"a\":2,\"z\":1\x7d".data =
      canonicalize (Json.obj [("z".data, Json.num 1), ("a".data, Json.num 2)]) := by
  obtain ⟨h1, h2, -⟩ := isCanonical_of_canonicalize
    (fun t =>
      if t = "\x7b\"a\":2,\"z\":1\x7d".data then
        some (canonicalizeValue
          (Json.obj [("z".data, Json.num 1), ("a".data, Json.num 2)]))
      else none)
    [("z".data, Json.num 1), ("a".data, Json.num 2)]
    "\x7b\"a\":2,\"z\":1\x7d".data (by decide)
    (by
      show (if ("\x7b\"a\":2,\"z\":1\x7d".data : Str) =
          "\x7b\"a\":2,\"z\":1\x7d".data then
          some (canonicalizeValue
            (Json.obj [("z".data, Json.num 1), ("a".data, Json.num 2)]))
        else none) =
        some (canonicalizeValue
          (Json.obj [("z".data, Json.num 1), ("a".data, Json.num 2)]))
      rw [if_pos rfl])
  exact ⟨h1, h2⟩

/-! ### The record hasher (`src/server/src/hashing/hasher.ts`) -/

/-- JS property lookup on a record object. -/
def lookupJ (k : Str) (record : List (Str × Json)) : Option Json :=
  List.lookup k record

/-- Read a field that the `InferenceRecord` type declares as `string`. -/
def getStrField (record : List (Str × Json)) (k : Str) : Option Str :=
  match lookupJ k record with
  | some (Json.str s) => some s
  | _ => none

/-- The optional tail of the prepared record: `parameters`/`context` only
when present and non-empty (JS truthiness plus `Object.keys(...).length >
0`), `timestamp`/`nonce` whenever not `undefined`. -/
def optionalEntries (record : List (Str × Json)) : List (Str × Json) :=
  (match lookupJ "parameters".data record with
   | some (Json.obj pl) =>
     if pl.isEmpty then [] else [("parameters".data, Json.obj pl)]
   | _ => []) ++
  (match lookupJ "context".data record with
   | some (Json.obj cl) =>
     if cl.isEmpty then [] else [("context".data, Json.obj cl)]
   | _ => []) ++
  (match lookupJ "timestamp".data record with
   | some Json.undef => []
   | some v => [("timestamp".data, v)]
   | none => []) ++
  (match lookupJ "nonce".data record with
   | some Json.undef => []
   | some v => [("nonce".data, v)]
   | none => [])

/-- The object literal `prepareForHashing` builds, in its insertion
order.  `model` is copied verbatim (an absent `model` yields an
`undefined` value, which canonicalization later drops). -/
def preparedList (record : List (Str × Json)) (p o : Str) :
    List (Str × Json) :=
  ("model".data, (lookupJ "model".data record).getD Json.undef) ::
  ("prompt_hash".data, Json.str (normalizeHash p)) ::
  ("output_hash".data, Json.str (normalizeHash o)) ::
  optionalEntries record

/-- `prepareForHashing` from `hasher.ts`; `normalizeHash` on a
non-string `prompt_hash`/`output_hash` would throw (`none`). -/
def prepareForHashing (record : List (Str × Json)) :
    Option (List (Str × Json)) :=
  match getStrField record "prompt_hash".data,
      getStrField record "output_hash".data with
  | some p, some o => some (preparedList record p o)
  | _, _ => none

/-- `hashInference` from `hasher.ts`: prepare, canonicalize, keccak256. -/
def hashInference (K : Str → Str) (record : List (Str × Json)) :
    Option Str :=
  match prepareForHashing record with
  | none => none
  | some prepared =>
    match canonicalize (Json.obj prepared) with
    | none => none
    | some canonical => some (K canonical)

/-- `verifyInferenceHash` from `hasher.ts`: recompute and compare
case-insensitively, accepting the claimed hash with or without prefix. -/
def verifyInferenceHash (K : Str → Str) (record : List (Str × Json))
    (expectedHash : Str) : Option Bool :=
  match hashInference K record with
  | none => none
  | some computed =>
    some (jsLower computed == jsLower (normalizeHash expectedHash))

/-- Property lookup sees through permutations of an object with unique
keys. -/
theorem lookup_perm_of_nodup_keys (k : Str) :
    ∀ {r r' : List (Str × Json)}, r.Perm r' → (r.map Prod.fst).Nodup →
      List.lookup k r' = List.lookup k r := by
  intro r r' hperm
  induction hperm with
  | nil => intro _; rfl
  | cons a _ ih =>
    intro hnd
    obtain ⟨ka, va⟩ := a
    rw [List.lookup_cons, List.lookup_cons]
    simp only [List.map_cons] at hnd
    cases k == ka
    · exact ih (List.nodup_cons.mp hnd).2
    · rfl
  | swap x y l =>
    intro hnd
    obtain ⟨kx, vx⟩ := x
    obtain ⟨ky, vy⟩ := y
    have hne : ky ≠ kx := by
      simp only [List.map_cons, List.nodup_cons, List.mem_cons] at hnd
      exact fun h => hnd.1 (Or.inl h)
    rw [List.lookup_cons, List.lookup_cons, List.lookup_cons,
      List.lookup_cons]
    cases hkx : k == kx <;> cases hky : k == ky
    · rfl
    · rfl
    · rfl
    · exact absurd (((beq_iff_eq ..).mp hky).symm.trans ((beq_iff_eq ..).mp hkx))
        hne
  | trans h₁ _ ih₁ ih₂ =>
    intro hnd
    have hnd₂ := (h₁.map Prod.fst).nodup_iff.mp hnd
    exact (ih₂ hnd₂).trans (ih₁ hnd)

/-- `hashInference` only reads the seven declared fields. -/
theorem hashInference_congr (K : Str → Str) {r r' : List (Str × Json)}
    (hm : lookupJ "model".data r' = lookupJ "model".data r)
    (hp : lookupJ "prompt_hash".data r' = lookupJ "prompt_hash".data r)
    (ho : lookupJ "output_hash".data r' = lookupJ "output_hash".data r)
    (hpar : lookupJ "parameters".data r' = lookupJ "parameters".data r)
    (hcx : lookupJ "context".data r' = lookupJ "context".data r)
    (ht : lookupJ "timestamp".data r' = lookupJ "timestamp".data r)
    (hn : lookupJ "nonce".data r' = lookupJ "nonce".data r) :
    hashInference K r' = hashInference K r := by
  have hopt : optionalEntries r' = optionalEntries r := by
    unfold optionalEntries
    rw [hpar, hcx, ht, hn]
  have hgp : getStrField r' "prompt_hash".data =
      getStrField r "prompt_hash".data := by
    unfold getStrField
    rw [hp]
  have hgo : getStrField r' "output_hash".data =
      getStrField r "output_hash".data := by
    unfold getStrField
    rw [ho]
  have hprep : prepareForHashing r' = prepareForHashing r := by
    unfold prepareForHashing
    rw [hgp, hgo]
    cases getStrField r "prompt_hash".data with
    | none => rfl
    | some p =>
      cases getStrField r "output_hash".data with
      | none => rfl
      | some o =>
        show some (preparedList r' p o) = some (preparedList r p o)
        unfold preparedList
        rw [hm, hopt]
  unfold hashInference
  rw [hprep]

/-- Claim C2: `hashInference` is byte-identical on logically-equal
records: (1) any permutation of the fields of a record with unique keys;
(2) letter-case variation of `prompt_hash`/`output_hash`; (3)/(4) an
empty `parameters`/`context` mapping present-but-empty versus omitted.
Determinism over repeated calls is inherent: the model is a pure
function of the record. -/
theorem hashInference_logical_eq (K : Str → Str) :
    (∀ r r' : List (Str × Json), (r.map Prod.fst).Nodup → r.Perm r' →
      hashInference K r' = hashInference K r) ∧
    (∀ r r' : List (Str × Json), ∀ p p' o o' : Str,
      lookupJ "prompt_hash".data r = some (Json.str p) →
      lookupJ "prompt_hash".data r' = some (Json.str p') →
      jsLower p' = jsLower p →
      lookupJ "output_hash".data r = some (Json.str o) →
      lookupJ "output_hash".data r' = some (Json.str o') →
      jsLower o' = jsLower o →
      lookupJ "model".data r' = lookupJ "model".data r →
      lookupJ "parameters".data r' = lookupJ "parameters".data r →
      lookupJ "context".data r' = lookupJ "context".data r →
      lookupJ "timestamp".data r' = lookupJ "timestamp".data r →
      lookupJ "nonce".data r' = lookupJ "nonce".data r →
      hashInference K r' = hashInference K r) ∧
    (∀ r : List (Str × Json), "parameters".data ∉ r.map Prod.fst →
      hashInference K (r ++ [("parameters".data, Json.obj [])]) =
        hashInference K r) ∧
    (∀ r : List (Str × Json), "context".data ∉ r.map Prod.fst →
      hashInference K (r ++ [("context".data, Json.obj [])]) =
        hashInference K r) := by
  have hothers : ∀ (k₀ : Str) (v₀ : Json) (r : List (Str × Json)) (k : Str),
      k ≠ k₀ → lookupJ k (r ++ [(k₀, v₀)]) = lookupJ k r := by
    intro k₀ v₀ r k hk
    unfold lookupJ
    rw [List.lookup_append]
    cases List.lookup k r with
    | some v => rfl
    | none =>
      show List.lookup k [(k₀, v₀)] = none
      rw [List.lookup_cons]
      have : (k == k₀) = false := by
        simpa using hk
      rw [this]
      rfl
  have hself : ∀ (k₀ : Str) (v₀ : Json) (r : List (Str × Json)),
      k₀ ∉ r.map Prod.fst → lookupJ k₀ (r ++ [(k₀, v₀)]) = some v₀ := by
    intro k₀ v₀ r hk
    unfold lookupJ
    rw [List.lookup_append]
    have hnone : List.lookup k₀ r = none := by
      rw [List.lookup_eq_none_iff]
      intro q hq
      have : k₀ ≠ q.1 := fun h => hk (h ▸ List.mem_map_of_mem Prod.fst hq)
      simpa using this
    rw [hnone]
    show List.lookup k₀ [(k₀, v₀)] = some v₀
    simp
  refine ⟨?_, ?_, ?_, ?_⟩
  · intro r r' hnd hperm
    exact hashInference_congr K
      (lookup_perm_of_nodup_keys _ hperm hnd)
      (lookup_perm_of_nodup_keys _ hperm hnd)
      (lookup_perm_of_nodup_keys _ hperm hnd)
      (lookup_perm_of_nodup_keys _ hperm hnd)
      (lookup_perm_of_nodup_keys _ hperm hnd)
      (lookup_perm_of_nodup_keys _ hperm hnd)
      (lookup_perm_of_nodup_keys _ hperm hnd)
  · intro r r' p p' o o' hp hp' hpc ho ho' hoc hm hpar hcx ht hn
    have hopt : optionalEntries r' = optionalEntries r := by
      unfold optionalEntries
      rw [hpar, hcx, ht, hn]
    have hgp : getStrField r "prompt_hash".data = some p := by
      unfold getStrField
      rw [hp]
    have hgp' : getStrField r' "prompt_hash".data = some p' := by
      unfold getStrField
      rw [hp']
    have hgo : getStrField r "output_hash".data = some o := by
      unfold getStrField
      rw [ho]
    have hgo' : getStrField r' "output_hash".data = some o' := by
      unfold getStrField
      rw [ho']
    have hprep : prepareForHashing r' = prepareForHashing r := by
      unfold prepareForHashing
      rw [hgp, hgp', hgo, hgo']
      show some (preparedList r' p' o') = some (preparedList r p o)
      unfold preparedList
      rw [hm, hopt, normalizeHash_congr hpc, normalizeHash_congr hoc]
    unfold hashInference
    rw [hprep]
  · intro r hnot
    have hlp := hself "parameters".data (Json.obj []) r hnot
    have hnone : lookupJ "parameters".data r = none := by
      unfold lookupJ
      rw [List.lookup_eq_none_iff]
      intro q hq
      have : "parameters".data ≠ q.1 :=
        fun h => hnot (h ▸ List.mem_map_of_mem Prod.fst hq)
      simpa using this
    have hopt : optionalEntries (r ++ [("parameters".data, Json.obj [])]) =
        optionalEntries r := by
      unfold optionalEntries
      rw [hlp, hnone, hothers _ _ r "context".data (by decide),
        hothers _ _ r "timestamp".data (by decide),
        hothers _ _ r "nonce".data (by decide)]
      exact rfl
    have hgp : getStrField (r ++ [("parameters".data, Json.obj [])])
        "prompt_hash".data = getStrField r "prompt_hash".data := by
      unfold getStrField
      rw [hothers _ _ r "prompt_hash".data (by decide)]
    have hgo : getStrField (r ++ [("parameters".data, Json.obj [])])
        "output_hash".data = getStrField r "output_hash".data := by
      unfold getStrField
      rw [hothers _ _ r "output_hash".data (by decide)]
    have hprep : prepareForHashing (r ++ [("parameters".data, Json.obj [])]) =
        prepareForHashing r := by
      unfold prepareForHashing
      rw [hgp, hgo]
      cases getStrField r "prompt_hash".data with
      | none => rfl
      | some p =>
        cases getStrField r "output_hash".data with
        | none => rfl
        | some o =>
          show some (preparedList (r ++ [("parameters".data, Json.obj [])]) p o) =
            some (preparedList r p o)
          unfold preparedList
          rw [hopt, hothers _ _ r "model".data (by decide)]
    unfold hashInference
    rw [hprep]
  · intro r hnot
    have hlp := hself "context".data (Json.obj []) r hnot
    have hnone : lookupJ "context".data r = none := by
      unfold lookupJ
      rw [List.lookup_eq_none_iff]
      intro q hq
      have : "context".data ≠ q.1 :=
        fun h => hnot (h ▸ List.mem_map_of_mem Prod.fst hq)
      simpa using this
    have hopt : optionalEntries (r ++ [("context".data, Json.obj [])]) =
        optionalEntries r := by
      unfold optionalEntries
      rw [hlp, hnone, hothers _ _ r "parameters".data (by decide),
        hothers _ _ r "timestamp".data (by decide),
        hothers _ _ r "nonce".data (by decide)]
      exact rfl
    have hgp : getStrField (r ++ [("context".data, Json.obj [])])
        "prompt_hash".data = getStrField r "prompt_hash".data := by
      unfold getStrField
      rw [hothers _ _ r "prompt_hash".data (by decide)]
    have hgo : getStrField (r ++ [("context".data, Json.obj [])])
        "output_hash".data = getStrField r "output_hash".data := by
      unfold getStrField
      rw [hothers _ _ r "output_hash".data (by decide)]
    have hprep : prepareForHashing (r ++ [("context".data, Json.obj [])]) =
        prepareForHashing r := by
      unfold prepareForHashing
      rw [hgp, hgo]
      cases getStrField r "prompt_hash".data with
      | none => rfl
      | some p =>
        cases getStrField r "output_hash".data with
        | none => rfl
        | some o =>
          show some (preparedList (r ++ [("context".data, Json.obj [])]) p o) =
            some (preparedList r p o)
          unfold preparedList
          rw [hopt, hothers _ _ r "model".data (by decide)]
    unfold hashInference
    rw [hprep]

theorem hashInference_logical_eq_witness :
    hashInference (fun s => '0' :: 'x' :: s)
      [("prompt_hash".data, Json.str "0xAAAA".data),
       ("model".data, Json.str "gpt-4".data),
       ("output_hash".data, Json.str "0xbbbb".data)] =
      hashInference (fun s => '0' :: 'x' :: s)
        [("model".data, Json.str "gpt-4".data),
         ("prompt_hash".data, Json.str "0xAAAA".data),
         ("output_hash".data, Json.str "0xbbbb".data)] ∧
    hashInference (fun s => '0' :: 'x' :: s)
      [("model".data, Json.str "gpt-4".data),
       ("prompt_hash".data, Json.str "0xaaaa".data),
       ("output_hash".data, Json.str "0xBBBB".data)] =
      hashInference (fun s => '0' :: 'x' :: s)
        [("model".data, Json.str "gpt-4".data),
         ("prompt_hash".data, Json.str "0xAAAA".data),
         ("output_hash".data, Json.str "0xbbbb".data)] ∧
    hashInference (fun s => '0' :: 'x' :: s)
      ([("model".data, Json.str "gpt-4".data),
        ("prompt_hash".data, Json.str "0xAAAA".data),
        ("output_hash".data, Json.str "0xbbbb".data)] ++
       [("parameters".data, Json.obj [])]) =
      hashInference (fun s => '0' :: 'x' :: s)
        [("model".data, Json.str "gpt-4".data),
         ("prompt_hash".data, Json.str "0xAAAA".data),
         ("output_hash".data, Json.str "0xbbbb".data)] ∧
    hashInference (fun s => '0' :: 'x' :: s)
      ([("model".data, Json.str "gpt-4".data),
        ("prompt_hash".data, Json.str "0xAAAA".data),
        ("output_hash".data, Json.str "0xbbbb".data)] ++
       [("context".data, Json.obj [])]) =
      hashInference (fun s => '0' :: 'x' :: s)
        [("model".data, Json.str "gpt-4".data),
         ("prompt_hash".data, Json.str "0xAAAA".data),
         ("output_hash".data, Json.str "0xbbbb".data)] := by
  obtain ⟨h1, h2, h3, h4⟩ := hashInference_logical_eq (fun s => '0' :: 'x' :: s)
  refine ⟨h1 _ _ (by decide) (List.Perm.swap _ _ _),
    h2 _ _ "0xAAAA".data "0xaaaa".data "0xbbbb".data "0xBBBB".data
      rfl rfl (by decide) rfl rfl (by decide) rfl rfl rfl rfl rfl,
    h3 _ (by decide), h4 _ (by decide)⟩

/-! ### The verification orchestrator (`src/server/src/verifier/verifier.ts`) -/

/-- `AnchorRecord` from `types/index.ts`. -/
structure AnchorRecord where
  batch_id : Str
  merkle_root : Str
  tx_hash : Str
  block_number : Int
  chain_id : Int
  chain_name : Str
  anchored_at : Int
deriving Repr, DecidableEq

/-- The storage singleton's state, as far as verification reads it: the
stored batches and anchors, in iteration order. -/
structure StorageState where
  batches : List MerkleBatch
  anchors : List AnchorRecord
deriving Repr, DecidableEq

/-- `Storage.findBatchContainingHash` from `storage.ts`: first stored
batch whose leaf set contains the hash, case-insensitively. -/
def findBatchContainingHash (st : StorageState) (inferenceHash : Str) :
    Option MerkleBatch :=
  st.batches.find? fun batch =>
    batch.leaves.any fun leaf => jsLower leaf == jsLower inferenceHash

/-- `Storage.getAnchorByRoot` from `storage.ts`. -/
def getAnchorByRoot (st : StorageState) (root : Str) : Option AnchorRecord :=
  st.anchors.find? fun anchor =>
    jsLower anchor.merkle_root == jsLower root

/-- `VerificationResult` from `types/index.ts`. -/
structure VerificationResult where
  verified : Bool
  inference_hash : Str
  merkle_root : Option Str := none
  anchored_at : Option Int := none
  block_number : Option Int := none
  chain_id : Option Int := none
  chain_name : Option Str := none
  tx_hash : Option Str := none
  proof : Option MerkleProof := none
  error : Option Str := none
deriving Repr, DecidableEq

/-- The distinct per-stage failure messages of `verifyInference`. -/
def msgMustProvide : Str := ("Must provide either record or hash").data

def msgHashMismatch : Str :=
  ("Provided hash does not match computed hash from record").data

def msgNotBatched : Str := ("Inference not found in any batch").data

def msgProofGeneration : Str := ("Failed to generate Merkle proof").data

def msgProofInvalid : Str := ("Merkle proof verification failed").data

def msgNotAnchored : Str := ("Batch not anchored on-chain").data

/-- Steps 2–4 of `verifyInference` from `verifier.ts`, once the inference
hash is known: locate the batch, generate and check the proof, look up the
anchor.  Each stage fails with its own distinct cause string. -/
def verifyStages (K : Str → Str) (st : StorageState) (inferenceHash : Str) :
    Option VerificationResult :=
  -- Step 2: find the batch containing this inference
  match findBatchContainingHash st inferenceHash with
  | none =>
    some ⟨false, inferenceHash, none, none, none, none, none, none, none,
      some msgNotBatched⟩
  | some batch =>
    -- Step 3: generate and verify the Merkle proof
    match generateProof batch inferenceHash with
    | none =>
      some ⟨false, inferenceHash, some batch.root, none, none, none, none,
        none, none, some msgProofGeneration⟩
    | some pr =>
      if verifyProof K pr = false then
        some ⟨false, inferenceHash, some batch.root, none, none, none, none,
          none, some pr, some msgProofInvalid⟩
      else
        -- Step 4: check the anchor status
        match getAnchorByRoot st batch.root with
        | none =>
          some ⟨false, inferenceHash, some batch.root, none, none, none,
            none, none, some pr, some msgNotAnchored⟩
        | some anchor =>
          some ⟨true, inferenceHash, some batch.root, some anchor.anchored_at,
            some anchor.block_number, some anchor.chain_id,
            some anchor.chain_name, some anchor.tx_hash, some pr, none⟩

/-- `verifyInference` from `verifier.ts`, for the pure configuration
(no `rpcUrl`/`contractAddress` options, so the network-reading step 5 is
skipped — it is an external ledger read and cannot occur in a pure
model).  JS truthiness of `input.hash` (an empty string is falsy) is
modelled explicitly; a throw inside `hashInference` on a malformed record
surfaces as `none`. -/
def verifyInference (K : Str → Str) (st : StorageState)
    (record : Option (List (Str × Json))) (hash : Option Str) :
    Option VerificationResult :=
  -- Step 1: get or compute the inference hash
  match record with
  | some r =>
    match hashInference K r with
    | none => none
    | some inferenceHash =>
      match hash with
      | some h =>
        if h.isEmpty then verifyStages K st inferenceHash
        else
          match verifyInferenceHash K r h with
          | none => none
          | some ok =>
            if ok then verifyStages K st inferenceHash
            else
              some ⟨false, inferenceHash, none, none, none, none, none, none,
                none, some msgHashMismatch⟩
      | none => verifyStages K st inferenceHash
  | none =>
    match hash with
    | some h =>
      if h.isEmpty then
        some ⟨false, [], none, none, none, none, none, none, none,
          some msgMustProvide⟩
      else verifyStages K st h
    | none =>
      some ⟨false, [], none, none, none, none, none, none, none,
        some msgMustProvide⟩

/-- A string with a fixed prefix differs from any string that does not
start with that prefix. -/
theorem append_ne_of_take {p e m : Str} (h : p ≠ m.take p.length) :
    p ++ e ≠ m := by
  intro he
  exact h (by rw [← he, List.take_left' rfl])

/-- Claim C9: verification failures are returned as values with a
distinct cause per stage — a hash in no stored batch yields the
not-batched cause, a hash in a batch whose root has no anchor record
yields the not-anchored cause, and the stage messages (including the
prefixed on-chain-failure messages of the optional step 5) are pairwise
distinct, never collapsed into one generic failure. -/
theorem verifyInference_causes (K : Str → Str) (st : StorageState) (h : Str) :
    (h ≠ [] → findBatchContainingHash st h = none →
      verifyInference K st none (some h) =
        some ⟨false, h, none, none, none, none, none, none, none,
          some msgNotBatched⟩) ∧
    (∀ batch pr, h ≠ [] → findBatchContainingHash st h = some batch →
      generateProof batch h = some pr → verifyProof K pr = true →
      getAnchorByRoot st batch.root = none →
      verifyInference K st none (some h) =
        some ⟨false, h, some batch.root, none, none, none, none, none,
          some pr, some msgNotAnchored⟩) ∧
    (msgNotBatched ≠ msgNotAnchored ∧ msgNotBatched ≠ msgProofGeneration ∧
     msgNotBatched ≠ msgProofInvalid ∧ msgNotAnchored ≠ msgProofGeneration ∧
     msgNotAnchored ≠ msgProofInvalid ∧
     msgProofGeneration ≠ msgProofInvalid) ∧
    (∀ e : Str,
      ("On-chain verification failed: ").data ++ e ≠ msgNotBatched ∧
      ("On-chain verification failed: ").data ++ e ≠ msgNotAnchored ∧
      ("On-chain verification failed: ").data ++ e ≠ msgProofGeneration ∧
      ("On-chain verification failed: ").data ++ e ≠ msgProofInvalid ∧
      ("On-chain check failed: ").data ++ e ≠ msgNotBatched ∧
      ("On-chain check failed: ").data ++ e ≠ msgNotAnchored ∧
      ("On-chain check failed: ").data ++ e ≠ msgProofGeneration ∧
      ("On-chain check failed: ").data ++ e ≠ msgProofInvalid) := by
  refine ⟨?_, ?_, ?_, ?_⟩
  · intro hne hfind
    show (if h.isEmpty = true then
        some ⟨false, [], none, none, none, none, none, none, none,
          some msgMustProvide⟩
      else verifyStages K st h) = _
    rw [if_neg (by simp [List.isEmpty_iff, hne])]
    unfold verifyStages
    rw [hfind]
  · intro batch pr hne hfind hgen hv hanchor
    show (if h.isEmpty = true then
        some ⟨false, [], none, none, none, none, none, none, none,
          some msgMustProvide⟩
      else verifyStages K st h) = _
    rw [if_neg (by simp [List.isEmpty_iff, hne])]
    unfold verifyStages
    simp only [hfind, hgen]
    rw [if_neg (by simp [hv])]
    simp only [hanchor]
  · refine ⟨by decide, by decide, by decide, by decide, by decide, by decide⟩
  · intro e
    exact ⟨append_ne_of_take (by decide), append_ne_of_take (by decide),
      append_ne_of_take (by decide), append_ne_of_take (by decide),
      append_ne_of_take (by decide), append_ne_of_take (by decide),
      append_ne_of_take (by decide), append_ne_of_take (by decide)⟩

/-- Claim C10: with neither a record nor a hash, `verifyInference`
returns `verified: false` with an empty inference hash and an explanatory
message, instead of raising. -/
theorem verifyInference_no_input (K : Str → Str) (st : StorageState) :
    verifyInference K st none none =
      some ⟨false, [], none, none, none, none, none, none, none,
        some msgMustProvide⟩ := rfl

theorem verifyInference_causes_witness :
    verifyInference (fun s => '0' :: 'x' :: s) ⟨[], []⟩ none
      (some "0xaa".data) =
      some ⟨false, "0xaa".data, none, none, none, none, none, none, none,
        some msgNotBatched⟩ ∧
    verifyInference (fun s => '0' :: 'x' :: s)
      ⟨[⟨"0xaa".data, ["0xaa".data], [["0xaa".data]], 1⟩], []⟩ none
      (some "0xaa".data) =
      some ⟨false, "0xaa".data, some "0xaa".data, none, none, none, none,
        none, some ⟨"0xaa".data, [], "0xaa".data, 0⟩,
        some msgNotAnchored⟩ := by
  obtain ⟨h1, -, -⟩ := verifyInference_causes (fun s => '0' :: 'x' :: s)
    ⟨[], []⟩ "0xaa".data
  obtain ⟨-, h2, -⟩ := verifyInference_causes (fun s => '0' :: 'x' :: s)
    ⟨[⟨"0xaa".data, ["0xaa".data], [["0xaa".data]], 1⟩], []⟩ "0xaa".data
  exact ⟨h1 (by decide) (by decide),
    h2 ⟨"0xaa".data, ["0xaa".data], [["0xaa".data]], 1⟩
      ⟨"0xaa".data, [], "0xaa".data, 0⟩ (by decide) (by decide) (by decide)
      (by decide) rfl⟩

end AiProofTrace
